/-
Verification of the spatial-region model and Kruskal-based proximity graph of
`chemschematicdiagramextractor/model.py`.

Embedding conventions:
* Python numbers (coordinates, weights) are modelled as rationals `ℚ`;
  Python `/` is true division, matched exactly by division in `ℚ`.
* `np.hypot`/`np.sqrt` on the real line is modelled by `Real.sqrt`.
* A Python `IndexError` (reading past the end of a list) is modelled by the
  `none` value of an `Option` result.
* Python's unbounded recursion (the self-recursive `repeating` property
  getter) is modelled by a fuel-indexed function that returns `none` for
  every amount of fuel: the getter never produces a value.
* Python's `sorted(..., key=lambda item: item[2])` is the unique stable
  ascending sort by weight; it is modelled by a stable insertion sort
  (`sortEdges`), whose sortedness and stability are proved below, which
  pins the same output list.
* `find` climbs `parent` links with no bound in the source; it is modelled
  with fuel `parent.length`, which is proved sufficient on every union-find
  state kruskal actually builds (the `Climbs` development below).
-/
import Mathlib

/-! ## The rectangle model (`Rect` in model.py) -/

/-- A rectangular region: `Rect(left, right, top, bottom)`. -/
structure Rect where
  left : ℚ
  right : ℚ
  top : ℚ
  bottom : ℚ
  deriving DecidableEq

namespace Rect

/-- `width = right - left`. -/
def width (r : Rect) : ℚ := r.right - r.left

/-- `height = bottom - top`. -/
def height (r : Rect) : ℚ := r.bottom - r.top

/-- `perimeter = 2*height + 2*width`. -/
def perimeter (r : Rect) : ℚ := 2 * r.height + 2 * r.width

/-- `area = width * height`. -/
def area (r : Rect) : ℚ := r.width * r.height

/-- `center = ((left+right)/2, (bottom+top)/2)`. -/
def center (r : Rect) : ℚ × ℚ := ((r.left + r.right) / 2, (r.bottom + r.top) / 2)

/-- `contains(other_rect)`: all four edges of `other_rect` lie inclusively
within this rectangle's edges. -/
def contains (s o : Rect) : Prop :=
  o.left ≥ s.left ∧ o.right ≤ s.right ∧ o.top ≥ s.top ∧ o.bottom ≤ s.bottom

instance (s o : Rect) : Decidable (s.contains o) := by
  unfold contains; infer_instance

/-- `overlaps(other_rect)`: strictly positive intersection of the projections
on both axes. -/
def overlaps (s o : Rect) : Prop :=
  min s.right o.right > max s.left o.left ∧ min s.bottom o.bottom > max s.top o.top

instance (s o : Rect) : Decidable (s.overlaps o) := by
  unfold overlaps; infer_instance

/-- `separation(other_rect)`: `np.hypot` of the absolute differences of the
center coordinates, i.e. the Euclidean distance between the two centers. -/
noncomputable def separation (s o : Rect) : ℝ :=
  Real.sqrt (((|s.center.1 - o.center.1| : ℚ) : ℝ) ^ 2 +
    ((|s.center.2 - o.center.2| : ℚ) : ℝ) ^ 2)

end Rect

/-! ## Tagged regions (`Panel`, `Label`, `Diagram`) -/

/-- A `Panel` is a `Rect` with a `tag` and the backing field `_repeating`
written by the `repeating` setter. -/
structure Panel extends Rect where
  tag : String
  _repeating : Bool
  deriving DecidableEq

namespace Panel

/-- The `repeating` setter: stores the flag into `_repeating`. -/
def setRepeating (p : Panel) (b : Bool) : Panel := { p with _repeating := b }

/-- `Panel.__init__`: stores the rect bounds and the tag, then runs
`self.repeating = False`, which invokes the setter. -/
def make (left right top bottom : ℚ) (tag : String) : Panel :=
  setRepeating { left := left, right := right, top := top, bottom := bottom,
                 tag := tag, _repeating := false } false

/-- The `repeating` property getter.  Its body is `return self.repeating`,
which re-invokes the getter itself; with any finite amount of fuel the
call never produces a value. -/
def repeatingGet (p : Panel) : Nat → Option Bool
  | 0 => none
  | fuel + 1 => repeatingGet p fuel

end Panel

/-- A `Label` is a `Panel` whose `text` is set later by an external OCR
stage (absent, `none`, until then). -/
structure Label extends Panel where
  text : Option String
  deriving DecidableEq

/-- A `Diagram` is a `Panel` with a `label` back-reference and a `smile`
string, both optional (default `None`). -/
structure Diagram extends Panel where
  label : Option Label
  smile : Option String
  deriving DecidableEq

namespace Diagram

/-- `Diagram(*args)` with the default keyword arguments `label=None`,
`smile=None`. -/
def make (left right top bottom : ℚ) (tag : String) : Diagram :=
  { Panel.make left right top bottom tag with label := none, smile := none }

/-- Rendering of an optional value by Python's `%s` (None prints "None"). -/
def optText : Option String → String
  | none => "None"
  | some s => s

/-- `Diagram.__repr__`: formats `self.label.tag`; when `label` is `None`
the attribute access `None.tag` fails (modelled as `none`). -/
def reprFmt (d : Diagram) : Option String :=
  d.label.map (fun lab =>
    "Diagram(label=" ++ lab.tag ++ ", smile=" ++ optText d.smile)

/-- `Diagram.__str__`: same `self.label.tag` dereference as `__repr__`. -/
def strFmt (d : Diagram) : Option String :=
  d.label.map (fun lab =>
    "<Diagram (" ++ lab.tag ++ ", " ++ optText d.smile ++ ")>")

end Diagram

/-! ## The weighted graph and Kruskal's algorithm (`Graph` in model.py) -/

/-- An edge `[u, v, w]` as appended by `addEdge`. -/
abbrev Edge := Nat × Nat × ℚ

/- Pin the boolean equality on edges to the `DecidableEq`-derived one, so
that `List.count` and `List.erase` over edge lists agree with the
instance used by the `List.Subperm` counting lemmas. -/
@[reducible] instance (priority := 2000) edgeBEq : BEq Edge := instBEqOfDecidableEq

instance edgeLawfulBEq : LawfulBEq Edge := @instLawfulBEq Edge inferInstance

/-- `Graph(vertices)`: vertex count `V` and the growing edge list `graph`. -/
structure Graph where
  V : Nat
  graph : List Edge
  deriving DecidableEq

/-- `Graph(vertices)` constructor: empty edge list. -/
def Graph.init (vertices : Nat) : Graph := { V := vertices, graph := [] }

/-- `addEdge(u, v, w)`: appends `[u, v, w]` to the edge list. -/
def Graph.addEdge (g : Graph) (u v : Nat) (w : ℚ) : Graph :=
  { g with graph := g.graph ++ [(u, v, w)] }

/-- Insert an edge into an already position-stable list: the new edge goes
after every strictly lighter edge and before the first edge of weight
greater or equal, which is exactly where a stable ascending sort by
weight places it. -/
def insertEdge (x : Edge) : List Edge → List Edge
  | [] => [x]
  | y :: ys => if y.2.2 < x.2.2 then y :: insertEdge x ys else x :: y :: ys

/-- The stable ascending sort by weight used in step 1 of `kruskal`
(`sorted(self.graph, key=lambda item: item[2])`).  Stable sorts by a fixed
key have a unique output list, so this insertion sort computes exactly
Python's `sorted`; its sortedness and stability are proved below. -/
def sortEdges : List Edge → List Edge
  | [] => []
  | x :: xs => insertEdge x (sortEdges xs)

/-- Fuel-indexed chase of `parent` links:
`find(parent, i) = i if parent[i] == i else find(parent, parent[i])`. -/
def findAux : Nat → List Nat → Nat → Nat
  | 0, _, i => i
  | fuel + 1, parent, i =>
    let p := parent.getD i i
    if p = i then i else findAux fuel parent p

/-- `find(parent, i)`.  Fuel `parent.length` is proved sufficient for every
union-find state the algorithm builds (`LoopInv` below), so on those
states this equals the source's unbounded recursion. -/
def find (parent : List Nat) (i : Nat) : Nat := findAux parent.length parent i

/-- `union(parent, rank, x, y)`: union by rank; returns the updated
`parent` and `rank` lists (the source mutates them in place). -/
def union (parent rank : List Nat) (x y : Nat) : List Nat × List Nat :=
  let xroot := find parent x
  let yroot := find parent y
  if rank.getD xroot 0 < rank.getD yroot 0 then
    (parent.set xroot yroot, rank)
  else if rank.getD yroot 0 < rank.getD xroot 0 then
    (parent.set yroot xroot, rank)
  else
    (parent.set yroot xroot, rank.set xroot (rank.getD xroot 0 + 1))

/-- The edge-scanning loop of `kruskal`:
`while e < self.V - 1` reads `self.graph[i]`, increments `i`, and accepts
the edge when the two roots differ.  Reading past the end of the edge
list (Python `IndexError`) is the `none` result. -/
def kruskalGo (V : Nat) : List Edge → List Nat → List Nat → Nat → List Edge →
    Option (List Edge)
  | [], _, _, e, result => if e < V - 1 then none else some result
  | (u, v, w) :: rest, parent, rank, e, result =>
    if e < V - 1 then
      let x := find parent u
      let y := find parent v
      if x ≠ y then
        let pr := union parent rank x y
        kruskalGo V rest pr.1 pr.2 (e + 1) (result ++ [(u, v, w)])
      else
        kruskalGo V rest parent rank e result
    else some result

/-- `kruskal()` both returns a result and replaces `self.graph` by the
sorted edge list (the sort in step 1 rebinds `self.graph`); the second
component is the post-call state of the graph object. -/
def kruskalRun (g : Graph) : Option (List Edge) × Graph :=
  (kruskalGo g.V (sortEdges g.graph) (List.range g.V) (List.replicate g.V 0) 0 [],
   { V := g.V, graph := sortEdges g.graph })

/-- The value returned by `kruskal()`. -/
def Graph.kruskal (g : Graph) : Option (List Edge) := (kruskalRun g).1

/-- Sum of the weights of a list of edges. -/
def weightSum (l : List Edge) : ℚ := (l.map (fun e => e.2.2)).sum

/-! ## Undirected reachability over an edge list -/

/-- The (undirected) edge `e` joins `a` and `b`. -/
def edgeTouches (e : Edge) (a b : Nat) : Prop :=
  (e.1 = a ∧ e.2.1 = b) ∨ (e.1 = b ∧ e.2.1 = a)

instance (e : Edge) (a b : Nat) : Decidable (edgeTouches e a b) := by
  unfold edgeTouches; infer_instance

/-- Two vertices are adjacent when some edge of the list joins them. -/
def Adj (es : List Edge) (a b : Nat) : Prop := ∃ e ∈ es, edgeTouches e a b

instance (es : List Edge) (a b : Nat) : Decidable (Adj es a b) := by
  unfold Adj; infer_instance

/-- Undirected reachability: reflexive-transitive closure of adjacency. -/
def Reach (es : List Edge) : Nat → Nat → Prop := Relation.ReflTransGen (Adj es)

/-- The graph is connected: every two vertices below `V` are joined by a
path through the edge list. -/
def ConnectedG (g : Graph) : Prop :=
  ∀ u, u < g.V → ∀ v, v < g.V → Reach g.graph u v

/-- Every edge endpoint mentioned by the list lies below `V` (the spec's
invariant for graphs built by `addEdge`). -/
def ValidEdges (V : Nat) (es : List Edge) : Prop :=
  ∀ e ∈ es, e.1 < V ∧ e.2.1 < V

instance (V : Nat) (es : List Edge) : Decidable (ValidEdges V es) := by
  unfold ValidEdges; infer_instance

/-- `T` spans the vertex set `{0, …, V-1}`. -/
def SpansUpTo (V : Nat) (T : List Edge) : Prop :=
  ∀ u, u < V → ∀ v, v < V → Reach T u v

/-- `T` is a spanning tree of the multiset of edges `es` on vertices
`{0, …, V-1}`: a sub-multiset of `es` of exactly `V - 1` edges joining all
the vertices. -/
def IsSpanTree (V : Nat) (es T : List Edge) : Prop :=
  T.Subperm es ∧ SpansUpTo V T ∧ T.length = V - 1

/-! ## A computable reachability check (used only to decide hypotheses) -/

/-- One growing pass over the edge list: add to `s` every endpoint whose
partner is already present. -/
def growOnce (es : List Edge) (s : List Nat) : List Nat :=
  match es with
  | [] => s
  | e :: rest =>
    let r := growOnce rest s
    if e.1 ∈ r then e.2.1 :: r else if e.2.1 ∈ r then e.1 :: r else r

/-- Saturated set of vertices reachable from `a`. -/
def reachSet (es : List Edge) (a : Nat) : List Nat :=
  (growOnce es)^[2 * es.length + 1] [a]

/-! ## Geometry claims -/

/-- Claim C5: `overlaps` is true iff both axis projections intersect with
strictly positive overlap, it is symmetric, and rectangles sharing only a
boundary edge (`a.right = b.left`) do not overlap. -/
theorem claim_C5 :
    (∀ a b : Rect, a.overlaps b ↔
      (min a.right b.right > max a.left b.left ∧
       min a.bottom b.bottom > max a.top b.top)) ∧
    (∀ a b : Rect, a.overlaps b ↔ b.overlaps a) ∧
    (∀ a b : Rect, a.right = b.left → ¬ a.overlaps b) := by
  refine ⟨fun a b => Iff.rfl, fun a b => ?_, fun a b hab => ?_⟩
  · unfold Rect.overlaps
    rw [min_comm a.right, max_comm a.left, min_comm a.bottom, max_comm a.top]
  · rintro ⟨h1, -⟩
    have hle : min a.right b.right ≤ max a.left b.left := by
      calc min a.right b.right ≤ a.right := min_le_left _ _
        _ = b.left := hab
        _ ≤ max a.left b.left := le_max_right _ _
    exact absurd (lt_of_le_of_lt hle h1) (lt_irrefl _)

/-- Witness for claim C5 at `Rect(0,10,0,10)` and `Rect(10,20,0,10)`. -/
theorem claim_C5_witness :
    (Rect.mk 0 10 0 10).right = (Rect.mk 10 20 0 10).left ∧
    ¬ (Rect.mk 0 10 0 10).overlaps (Rect.mk 10 20 0 10) :=
  ⟨rfl, claim_C5.2.2 _ _ rfl⟩

/-- Claim C6: `contains` is the inclusive four-edge comparison, it is
reflexive, and it is transitive. -/
theorem claim_C6 :
    (∀ s o : Rect, s.contains o ↔
      (o.left ≥ s.left ∧ o.right ≤ s.right ∧ o.top ≥ s.top ∧ o.bottom ≤ s.bottom)) ∧
    (∀ r : Rect, r.contains r) ∧
    (∀ a b c : Rect, a.contains b → b.contains c → a.contains c) := by
  refine ⟨fun s o => Iff.rfl, fun r => ⟨le_refl _, le_refl _, le_refl _, le_refl _⟩, ?_⟩
  rintro a b c ⟨h1, h2, h3, h4⟩ ⟨g1, g2, g3, g4⟩
  exact ⟨le_trans h1 g1, le_trans g2 h2, le_trans h3 g3, le_trans g4 h4⟩

/-- Witness for claim C6: transitivity applied to three nested rectangles. -/
theorem claim_C6_witness :
    (Rect.mk 0 10 0 10).contains (Rect.mk 1 9 1 9) ∧
    (Rect.mk 1 9 1 9).contains (Rect.mk 2 8 2 8) ∧
    (Rect.mk 0 10 0 10).contains (Rect.mk 2 8 2 8) :=
  ⟨by decide, by decide,
   claim_C6.2.2 (Rect.mk 0 10 0 10) (Rect.mk 1 9 1 9) (Rect.mk 2 8 2 8)
     (by decide) (by decide)⟩

/-- Claim C7: `separation` is the Euclidean distance between the two center
points, it is symmetric, a rectangle is at distance 0 from itself, and the
worked example `Rect(0,10,0,10)` vs `Rect(10,20,0,10)` gives `10.0`. -/
theorem claim_C7 :
    (∀ a b : Rect, a.separation b =
      Real.sqrt (((a.center.1 - b.center.1 : ℚ) : ℝ) ^ 2 +
        ((a.center.2 - b.center.2 : ℚ) : ℝ) ^ 2)) ∧
    (∀ a b : Rect, a.separation b = b.separation a) ∧
    (∀ a : Rect, a.separation a = 0) ∧
    (Rect.mk 0 10 0 10).separation (Rect.mk 10 20 0 10) = 10 := by
  refine ⟨fun a b => ?_, fun a b => ?_, fun a => ?_, ?_⟩
  · unfold Rect.separation
    rw [Rat.cast_abs, Rat.cast_abs, sq_abs, sq_abs]
  · unfold Rect.separation
    rw [abs_sub_comm (a.center.1), abs_sub_comm (a.center.2)]
  · unfold Rect.separation
    simp
  · have h : (Rect.mk 0 10 0 10).separation (Rect.mk 10 20 0 10) =
        Real.sqrt 100 := by
      unfold Rect.separation Rect.center
      norm_num
    rw [h, show (100 : ℝ) = 10 ^ 2 by norm_num,
      Real.sqrt_sq (by norm_num : (0:ℝ) ≤ 10)]

/-! ## Attribute-model claims -/

/-- Claim C9: reading the `repeating` property never returns a value (the
getter re-invokes itself, so no amount of fuel produces a result), while
the setter and the constructor do store the flag in the backing field
`_repeating`.  `Diagram` and `Label` contain a `Panel`, so they inherit
the same getter. -/
theorem claim_C9 :
    (∀ (p : Panel) (fuel : Nat), p.repeatingGet fuel = none) ∧
    (∀ (p : Panel) (b : Bool), (p.setRepeating b)._repeating = b) ∧
    (∀ (l r t b : ℚ) (tag : String), (Panel.make l r t b tag)._repeating = false) := by
  refine ⟨fun p fuel => ?_, fun p b => rfl, fun l r t b tag => rfl⟩
  induction fuel with
  | zero => rfl
  | succ n ih => exact ih

/-- Claim C10: a `Diagram` is constructed with `label = None`; `__repr__`
and `__str__` dereference `self.label.tag`, so string conversion fails
(no value) while `label` is `None` and succeeds once a label with a tag is
assigned. -/
theorem claim_C10 :
    (∀ (l r t b : ℚ) (tag : String), (Diagram.make l r t b tag).label = none) ∧
    (∀ d : Diagram, d.label = none → d.reprFmt = none ∧ d.strFmt = none) ∧
    (∀ (d : Diagram) (lab : Label), d.label = some lab →
      d.reprFmt = some ("Diagram(label=" ++ lab.tag ++ ", smile=" ++
        Diagram.optText d.smile) ∧ (d.strFmt).isSome) := by
  refine ⟨fun l r t b tag => rfl, fun d h => ?_, fun d lab h => ?_⟩
  · unfold Diagram.reprFmt Diagram.strFmt
    rw [h]; exact ⟨rfl, rfl⟩
  · unfold Diagram.reprFmt Diagram.strFmt
    rw [h]; exact ⟨rfl, rfl⟩

/-- Witness for claim C10 at a concrete freshly constructed diagram. -/
theorem claim_C10_witness :
    (Diagram.make 0 1 0 1 "d").label = none ∧
    ((Diagram.make 0 1 0 1 "d").reprFmt = none ∧
     (Diagram.make 0 1 0 1 "d").strFmt = none) :=
  ⟨rfl, claim_C10.2.1 _ rfl⟩

/-! ## Sorting lemmas: the sort is a stable ascending sort by weight -/

/-- Non-decreasing weight order between edges. -/
def weightLE (a b : Edge) : Prop := a.2.2 ≤ b.2.2

theorem mem_insertEdge {z x : Edge} {l : List Edge} :
    z ∈ insertEdge x l ↔ z = x ∨ z ∈ l := by
  induction l with
  | nil => simp [insertEdge]
  | cons y ys ih =>
    by_cases h : y.2.2 < x.2.2
    · simp only [insertEdge, if_pos h, List.mem_cons, ih]
      tauto
    · simp only [insertEdge, if_neg h, List.mem_cons]

theorem insertEdge_perm (x : Edge) (l : List Edge) :
    (insertEdge x l).Perm (x :: l) := by
  induction l with
  | nil => simp [insertEdge]
  | cons y ys ih =>
    by_cases h : y.2.2 < x.2.2
    · simp only [insertEdge, if_pos h]
      exact (ih.cons y).trans (List.Perm.swap x y ys)
    · simp [insertEdge, if_neg h]

theorem sortEdges_perm (l : List Edge) : (sortEdges l).Perm l := by
  induction l with
  | nil => simp [sortEdges]
  | cons x xs ih =>
    exact (insertEdge_perm x (sortEdges xs)).trans (ih.cons x)

theorem insertEdge_pairwise {x : Edge} {l : List Edge}
    (h : l.Pairwise weightLE) : (insertEdge x l).Pairwise weightLE := by
  induction l with
  | nil => simp [insertEdge, List.pairwise_cons]
  | cons y ys ih =>
    rw [List.pairwise_cons] at h
    by_cases hlt : y.2.2 < x.2.2
    · simp only [insertEdge, if_pos hlt]
      rw [List.pairwise_cons]
      refine ⟨fun z hz => ?_, ih h.2⟩
      rcases mem_insertEdge.1 hz with hz | hz
      · subst hz; exact le_of_lt hlt
      · exact h.1 z hz
    · simp only [insertEdge, if_neg hlt]
      rw [List.pairwise_cons]
      refine ⟨fun z hz => ?_, List.pairwise_cons.2 h⟩
      have hxy : weightLE x y := le_of_not_lt hlt
      rcases List.mem_cons.1 hz with hz | hz
      · subst hz; exact hxy
      · exact le_trans hxy (h.1 z hz)

theorem sortEdges_sorted (l : List Edge) : (sortEdges l).Pairwise weightLE := by
  induction l with
  | nil => simp [sortEdges]
  | cons x xs ih => exact insertEdge_pairwise ih

theorem insertEdge_of_le {x : Edge} {l : List Edge}
    (h : ∀ y ∈ l, x.2.2 ≤ y.2.2) : insertEdge x l = x :: l := by
  cases l with
  | nil => rfl
  | cons y ys =>
    have : ¬ y.2.2 < x.2.2 := not_lt.2 (h y (List.mem_cons_self _ _))
    simp [insertEdge, this]

theorem sortEdges_of_sorted {l : List Edge}
    (h : l.Pairwise weightLE) : sortEdges l = l := by
  induction l with
  | nil => rfl
  | cons x xs ih =>
    rw [List.pairwise_cons] at h
    show insertEdge x (sortEdges xs) = x :: xs
    rw [ih h.2]
    exact insertEdge_of_le h.1

theorem sortEdges_idem (l : List Edge) :
    sortEdges (sortEdges l) = sortEdges l :=
  sortEdges_of_sorted (sortEdges_sorted l)

theorem filter_weight_insertEdge (x : Edge) (l : List Edge) (q : ℚ) :
    (insertEdge x l).filter (fun e => e.2.2 == q) =
      if x.2.2 = q then x :: l.filter (fun e => e.2.2 == q)
      else l.filter (fun e => e.2.2 == q) := by
  have fc : ∀ (y : Edge) (m : List Edge),
      (y :: m).filter (fun e => e.2.2 == q) =
        if y.2.2 = q then y :: m.filter (fun e => e.2.2 == q)
        else m.filter (fun e => e.2.2 == q) := by
    intro y m
    by_cases h : y.2.2 = q
    · simp [List.filter_cons, h]
    · simp [List.filter_cons, h]
  induction l with
  | nil =>
    show ([x]).filter _ = _
    rw [fc x []]
  | cons y ys ih =>
    show (if y.2.2 < x.2.2 then y :: insertEdge x ys else x :: y :: ys).filter _ = _
    by_cases hlt : y.2.2 < x.2.2
    · rw [if_pos hlt, fc y (insertEdge x ys), ih, fc y ys]
      split_ifs with h1 h2 <;> simp_all
    · rw [if_neg hlt, fc x (y :: ys)]

theorem filter_weight_sortEdges (l : List Edge) (q : ℚ) :
    (sortEdges l).filter (fun e => e.2.2 == q) =
      l.filter (fun e => e.2.2 == q) := by
  induction l with
  | nil => rfl
  | cons x xs ih =>
    show (insertEdge x (sortEdges xs)).filter _ = _
    rw [filter_weight_insertEdge, ih]
    by_cases hx : x.2.2 = q
    · rw [if_pos hx]
      simp [List.filter_cons, hx]
    · rw [if_neg hx]
      simp [List.filter_cons, hx]

/-! ## Claims about sorting, idempotence, and small vertex counts -/

/-- Claim C3: `kruskal` sorts edges ascending by weight with a stable sort
(equal-weight edges keep their insertion order, witnessed by the filter
characterisation), and on the worked 4-vertex example returns exactly
`[(0,1,1), (2,3,1), (1,2,2)]` in acceptance order, of total weight 4. -/
theorem claim_C3 :
    (∀ l : List Edge, (sortEdges l).Pairwise weightLE) ∧
    (∀ (l : List Edge) (q : ℚ),
      (sortEdges l).filter (fun e => e.2.2 == q) =
        l.filter (fun e => e.2.2 == q)) ∧
    ((((((Graph.init 4).addEdge 0 1 1).addEdge 1 2 2).addEdge 0 2 3).addEdge
        2 3 1).kruskal = some [(0, 1, 1), (2, 3, 1), (1, 2, 2)]) ∧
    weightSum [(0, 1, 1), (2, 3, 1), (1, 2, 2)] = 4 := by
  refine ⟨sortEdges_sorted, filter_weight_sortEdges, by decide, by norm_num [weightSum]⟩

/-- Claim C4: running `kruskal()` twice on an unmodified graph gives the
same outcome (result and final state): the only state the first call
leaves behind is the sorted edge list, and sorting is idempotent while
the union-find structures are rebuilt afresh. -/
theorem claim_C4 (g : Graph) : kruskalRun ((kruskalRun g).2) = kruskalRun g := by
  unfold kruskalRun
  rw [sortEdges_idem]

/-- Claim C8: with `V = 0` or `V = 1` the spanning-forest loop performs no
iterations: `kruskal()` returns the empty list whatever the edge list is. -/
theorem claim_C8 (g : Graph) (h : g.V ≤ 1) : g.kruskal = some [] := by
  have hv : g.V - 1 = 0 := by omega
  unfold Graph.kruskal kruskalRun
  cases hs : sortEdges g.graph with
  | nil => simp [kruskalGo, hv]
  | cons c rest =>
    obtain ⟨u, v, w⟩ := c
    simp [kruskalGo, hv]

/-- Witness for claim C8: a 1-vertex graph with a junk edge list. -/
theorem claim_C8_witness :
    (Graph.mk 1 [(5, 7, 2)]).V ≤ 1 ∧ (Graph.mk 1 [(5, 7, 2)]).kruskal = some [] :=
  ⟨by decide, claim_C8 _ (by decide)⟩

/-! ## Basic properties of undirected reachability -/

theorem edgeTouches_symm {e : Edge} {a b : Nat} (h : edgeTouches e a b) :
    edgeTouches e b a := h.elim (fun h => Or.inr h) (fun h => Or.inl h)

theorem adj_symm {es : List Edge} {a b : Nat} (h : Adj es a b) : Adj es b a := by
  obtain ⟨e, he, ht⟩ := h
  exact ⟨e, he, edgeTouches_symm ht⟩

theorem reach_symm {es : List Edge} {a b : Nat} (h : Reach es a b) :
    Reach es b a := by
  induction h with
  | refl => exact Relation.ReflTransGen.refl
  | tail _ hadj ih =>
    exact Relation.ReflTransGen.trans
      (Relation.ReflTransGen.single (adj_symm hadj)) ih

theorem adj_mono {es es' : List Edge} {a b : Nat}
    (hsub : ∀ e ∈ es, e ∈ es') (h : Adj es a b) : Adj es' a b := by
  obtain ⟨e, he, ht⟩ := h
  exact ⟨e, hsub e he, ht⟩

theorem reach_mono {es es' : List Edge} {a b : Nat}
    (hsub : ∀ e ∈ es, e ∈ es') (h : Reach es a b) : Reach es' a b :=
  Relation.ReflTransGen.mono (fun _ _ => adj_mono hsub) h

theorem reach_nil {a b : Nat} (h : Reach [] a b) : a = b := by
  induction h with
  | refl => rfl
  | tail _ hadj _ =>
    obtain ⟨e, he, -⟩ := hadj
    exact absurd he (List.not_mem_nil e)

theorem adj_single {c : Edge} {es : List Edge} (hc : c ∈ es) :
    Adj es c.1 c.2.1 := ⟨c, hc, Or.inl ⟨rfl, rfl⟩⟩

/-- Adding one edge `c` to the list extends reachability exactly by paths
that cross `c`. -/
theorem reach_append_single {es : List Edge} {c : Edge} {x y : Nat} :
    Reach (es ++ [c]) x y ↔
      Reach es x y ∨ (Reach es x c.1 ∧ Reach es c.2.1 y) ∨
        (Reach es x c.2.1 ∧ Reach es c.1 y) := by
  constructor
  · intro h
    induction h with
    | refl => exact Or.inl Relation.ReflTransGen.refl
    | tail hxm hadj ih =>
      obtain ⟨e, he, ht⟩ := hadj
      rcases List.mem_append.1 he with he | he
      · -- a step inside `es`
        have hstep : Adj es _ _ := ⟨e, he, ht⟩
        rcases ih with ih | ⟨ih1, ih2⟩ | ⟨ih1, ih2⟩
        · exact Or.inl (ih.tail hstep)
        · exact Or.inr (Or.inl ⟨ih1, ih2.tail hstep⟩)
        · exact Or.inr (Or.inr ⟨ih1, ih2.tail hstep⟩)
      · -- the step uses the added edge `c`
        have hec : e = c := List.mem_singleton.1 he
        subst hec
        rcases ht with ⟨h1, h2⟩ | ⟨h1, h2⟩
        · -- e.1 = m, e.2.1 = y
          subst h1; subst h2
          rcases ih with ih | ⟨ih1, -⟩ | ⟨ih1, ih2⟩
          · exact Or.inr (Or.inl ⟨ih, Relation.ReflTransGen.refl⟩)
          · exact Or.inr (Or.inl ⟨ih1, Relation.ReflTransGen.refl⟩)
          · exact Or.inl ih1
        · -- e.1 = y, e.2.1 = m
          subst h1; subst h2
          rcases ih with ih | ⟨ih1, ih2⟩ | ⟨ih1, -⟩
          · exact Or.inr (Or.inr ⟨ih, Relation.ReflTransGen.refl⟩)
          · exact Or.inl ih1
          · exact Or.inr (Or.inr ⟨ih1, Relation.ReflTransGen.refl⟩)
  · intro h
    have hsub : ∀ e ∈ es, e ∈ es ++ [c] := fun e he => List.mem_append.2 (Or.inl he)
    have hc : c ∈ es ++ [c] := List.mem_append.2 (Or.inr (List.mem_singleton.2 rfl))
    have hcc : Reach (es ++ [c]) c.1 c.2.1 :=
      Relation.ReflTransGen.single (adj_single hc)
    rcases h with h | ⟨h1, h2⟩ | ⟨h1, h2⟩
    · exact reach_mono hsub h
    · exact ((reach_mono hsub h1).trans hcc).trans (reach_mono hsub h2)
    · exact ((reach_mono hsub h1).trans (reach_symm hcc)).trans (reach_mono hsub h2)

/-- A path from inside `P` to outside `P` crosses `P` on some edge. -/
theorem cross_exists {es : List Edge} {x y : Nat} (P : Nat → Prop)
    (h : Reach es x y) (hx : P x) (hy : ¬ P y) :
    ∃ f ∈ es, ∃ a b, edgeTouches f a b ∧ P a ∧ ¬ P b := by
  induction h with
  | refl => exact absurd hx hy
  | @tail m z hxm hadj ih =>
    by_cases hm : P m
    · obtain ⟨e, he, ht⟩ := hadj
      exact ⟨e, he, m, z, ht, hm, hy⟩
    · exact ih hm

/-! ## Walks: explicit vertex lists witnessing reachability -/

/-- A walk through `es` from `a` to `b` visiting exactly the vertices `L`
(in order, endpoints included). -/
inductive WalkTo (es : List Edge) : Nat → Nat → List Nat → Prop
  | nil (a : Nat) : WalkTo es a a [a]
  | cons {a b c : Nat} {L : List Nat} :
      Adj es a b → WalkTo es b c L → WalkTo es a c (a :: L)

theorem walkTo_head {es : List Edge} :
    ∀ {a b : Nat} {L : List Nat}, WalkTo es a b L → ∃ L', L = a :: L' := by
  intro a b L h
  cases h with
  | nil => exact ⟨[], rfl⟩
  | cons _ _ => exact ⟨_, rfl⟩

theorem walkTo_start_mem {es : List Edge} {a b : Nat} {L : List Nat}
    (h : WalkTo es a b L) : a ∈ L := by
  obtain ⟨L', rfl⟩ := walkTo_head h
  exact List.mem_cons_self _ _

theorem walkTo_reach {es : List Edge} {a b : Nat} {L : List Nat}
    (h : WalkTo es a b L) : Reach es a b := by
  induction h with
  | nil => exact Relation.ReflTransGen.refl
  | cons hadj _ ih => exact Relation.ReflTransGen.head hadj ih

theorem walkTo_snoc {es : List Edge} {a m z : Nat} {L : List Nat}
    (h : WalkTo es a m L) (hadj : Adj es m z) : WalkTo es a z (L ++ [z]) := by
  induction h with
  | nil => exact WalkTo.cons hadj (WalkTo.nil z)
  | cons hstep _ ih => exact WalkTo.cons hstep (ih hadj)

theorem reach_walkTo {es : List Edge} {a b : Nat} (h : Reach es a b) :
    ∃ L, WalkTo es a b L := by
  induction h with
  | refl => exact ⟨[a], WalkTo.nil a⟩
  | tail _ hadj ih =>
    obtain ⟨L, hL⟩ := ih
    exact ⟨L ++ [_], walkTo_snoc hL hadj⟩


theorem walkTo_ne_nil {es : List Edge} {a b : Nat} {L : List Nat}
    (h : WalkTo es a b L) : L ≠ [] := by
  obtain ⟨L', rfl⟩ := walkTo_head h
  exact List.cons_ne_nil _ _

/-- Inversion for a walk on a list with a nonempty tail: it must start with
a step. -/
theorem walkTo_cons_elim {es : List Edge} {a b p : Nat} {t : List Nat}
    (h : WalkTo es a b (p :: t)) (hne : t ≠ []) :
    ∃ m, a = p ∧ Adj es a m ∧ WalkTo es m b t := by
  cases h with
  | nil => exact absurd rfl hne
  | cons hadj hsub => exact ⟨_, rfl, hadj, hsub⟩

theorem walkTo_split {es : List Edge} {x b : Nat} :
    ∀ (L1 : List Nat) {a : Nat} {L2 : List Nat},
      WalkTo es a b (L1 ++ x :: L2) →
      WalkTo es a x (L1 ++ [x]) ∧ WalkTo es x b (x :: L2) := by
  intro L1
  induction L1 with
  | nil =>
    intro a L2 h
    rw [List.nil_append] at h
    cases h with
    | nil => exact ⟨WalkTo.nil _, WalkTo.nil _⟩
    | cons hadj hsub => exact ⟨WalkTo.nil _, WalkTo.cons hadj hsub⟩
  | cons p L1' ih =>
    intro a L2 h
    have h' : WalkTo es a b (p :: (L1' ++ x :: L2)) := h
    obtain ⟨m, rfl, hadj, hsub⟩ := walkTo_cons_elim h' (by simp)
    obtain ⟨W1, W2⟩ := ih hsub
    exact ⟨WalkTo.cons hadj W1, W2⟩

theorem walkTo_join {es : List Edge} {x b : Nat} :
    ∀ (L1 : List Nat) {a : Nat} {L2 : List Nat},
      WalkTo es a x (L1 ++ [x]) → WalkTo es x b (x :: L2) →
      WalkTo es a b (L1 ++ x :: L2) := by
  intro L1
  induction L1 with
  | nil =>
    intro a L2 h1 h2
    rw [List.nil_append] at h1
    cases h1 with
    | nil => exact h2
    | cons hadj hsub => exact absurd rfl (walkTo_ne_nil hsub)
  | cons p L1' ih =>
    intro a L2 h1 h2
    have h1' : WalkTo es a x (p :: (L1' ++ [x])) := h1
    obtain ⟨m, rfl, hadj, hsub⟩ := walkTo_cons_elim h1' (by simp)
    exact WalkTo.cons hadj (ih hsub h2)

theorem not_nodup_split {L : List Nat} (h : ¬ L.Nodup) :
    ∃ x l1 l2 l3, L = l1 ++ x :: (l2 ++ x :: l3) := by
  induction L with
  | nil => exact absurd List.nodup_nil h
  | cons y t ih =>
    by_cases hy : y ∈ t
    · obtain ⟨s, u, rfl⟩ := List.append_of_mem hy
      exact ⟨y, [], s, u, rfl⟩
    · have ht : ¬ t.Nodup := fun hnd => h (List.nodup_cons.2 ⟨hy, hnd⟩)
      obtain ⟨x, l1, l2, l3, rfl⟩ := ih ht
      exact ⟨x, y :: l1, l2, l3, rfl⟩

theorem walkTo_dedup {es : List Edge} :
    ∀ (n : Nat) {a b : Nat} {L : List Nat}, L.length ≤ n → WalkTo es a b L →
      ∃ L', WalkTo es a b L' ∧ L'.Nodup := by
  intro n
  induction n with
  | zero =>
    intro a b L hlen h
    obtain ⟨L', rfl⟩ := walkTo_head h
    exact absurd hlen (by simp)
  | succ n ih =>
    intro a b L hlen h
    by_cases hnd : L.Nodup
    · exact ⟨L, h, hnd⟩
    · obtain ⟨x, l1, l2, l3, rfl⟩ := not_nodup_split hnd
      obtain ⟨W1, W2⟩ := walkTo_split l1 h
      have W2' : WalkTo es x b ((x :: l2) ++ x :: l3) := by
        rw [List.cons_append]
        exact W2
      obtain ⟨-, W4⟩ := walkTo_split (x :: l2) W2'
      have hjoin : WalkTo es a b (l1 ++ x :: l3) := walkTo_join l1 W1 W4
      refine ih ?_ hjoin
      simp only [List.length_append, List.length_cons] at hlen ⊢
      omega

/-! ## The exchange step for Kruskal optimality -/

/-- Two ways of reading off the endpoints of the same edge agree up to
orientation. -/
theorem edgeTouches_pair {f : Edge} {a b a0 b0 : Nat}
    (h1 : edgeTouches f a b) (h2 : edgeTouches f a0 b0) :
    (a0 = a ∧ b0 = b) ∨ (a0 = b ∧ b0 = a) := by
  rcases h1 with ⟨e1, e2⟩ | ⟨e1, e2⟩ <;> rcases h2 with ⟨g1, g2⟩ | ⟨g1, g2⟩ <;>
    subst e1 <;> subst e2 <;>
    first
    | exact Or.inl ⟨g1.symm, g2.symm⟩
    | exact Or.inl ⟨g2.symm, g1.symm⟩
    | exact Or.inr ⟨g1.symm, g2.symm⟩
    | exact Or.inr ⟨g2.symm, g1.symm⟩

/-- A walk that avoids one endpoint of `f` survives removing one copy of
`f` from the edge list. -/
theorem walkTo_erase {es : List Edge} {f : Edge} {a0 b0 : Nat}
    (hf : edgeTouches f a0 b0) :
    ∀ {x y : Nat} {L : List Nat}, WalkTo es x y L → a0 ∉ L →
      WalkTo (es.erase f) x y L := by
  intro x y L h
  induction h with
  | nil => intro _; exact WalkTo.nil _
  | @cons a m c L hadj hsub ih =>
    intro hnot
    obtain ⟨e, he, ht⟩ := hadj
    have hne : e ≠ f := by
      intro hef
      subst hef
      rcases edgeTouches_pair ht hf with ⟨h1, h2⟩ | ⟨h1, h2⟩
      · exact hnot (h1 ▸ List.mem_cons_self _ _)
      · exact hnot (h1 ▸ List.mem_cons_of_mem _ (walkTo_start_mem hsub))
    have he' : e ∈ es.erase f := (List.mem_erase_of_ne hne).2 he
    have ihres := ih (fun hm => hnot (List.mem_cons_of_mem _ hm))
    exact WalkTo.cons ⟨e, he', ht⟩ ihres

/-- The crossing-edge extraction at the heart of the exchange argument:
a duplicate-free walk from inside `P` to outside `P` contains a crossing
edge `f` such that both walk ends stay reachable with `f` removed. -/
theorem walkTo_swap {T : List Edge} (P : Nat → Prop) :
    ∀ {u v : Nat} {L : List Nat}, WalkTo T u v L → L.Nodup → P u → ¬ P v →
      ∃ f a0 b0, f ∈ T ∧ edgeTouches f a0 b0 ∧ P a0 ∧ ¬ P b0 ∧
        Reach (T.erase f) u a0 ∧ Reach (T.erase f) b0 v := by
  intro u v L h
  induction h with
  | nil => intro _ hP hnP; exact absurd hP hnP
  | @cons a m c L hadj hsub ih =>
    intro hnd hP hnP
    have ha : a ∉ L := (List.nodup_cons.1 hnd).1
    have hndL : L.Nodup := (List.nodup_cons.1 hnd).2
    by_cases hm : P m
    · obtain ⟨f, a0, b0, hfT, hft, hPa0, hPb0, hr1, hr2⟩ := ih hndL hm hnP
      obtain ⟨e, he, ht⟩ := hadj
      have hne : e ≠ f := by
        intro hef
        subst hef
        rcases edgeTouches_pair ht hft with ⟨h1, h2⟩ | ⟨h1, h2⟩
        · exact hPb0 (h2 ▸ hm)
        · exact hPb0 (h2 ▸ hP)
      have hadj' : Adj (T.erase f) a m := ⟨e, (List.mem_erase_of_ne hne).2 he, ht⟩
      exact ⟨f, a0, b0, hfT, hft, hPa0, hPb0,
        Relation.ReflTransGen.head hadj' hr1, hr2⟩
    · obtain ⟨e, he, ht⟩ := hadj
      have hw : WalkTo (T.erase e) m c L := walkTo_erase ht hsub ha
      exact ⟨e, a, m, he, ht, hP, hm, Relation.ReflTransGen.refl,
        walkTo_reach hw⟩

/-- The exchange lemma.  From a `T`-path between the endpoints of an edge
`c` that crosses the vertex class `P`, produce an edge `f ∈ T` crossing
`P` such that swapping `f` for `c` preserves all `T`-reachability. -/
theorem reach_exchange {T : List Edge} {u v : Nat} (P : Nat → Prop)
    (hr : Reach T u v) (hPu : P u) (hPv : ¬ P v) :
    ∃ f, f ∈ T ∧ (∃ a0 b0, edgeTouches f a0 b0 ∧ P a0 ∧ ¬ P b0) ∧
      ∀ c : Edge, edgeTouches c u v →
        ∀ x y, Reach T x y → Reach (c :: T.erase f) x y := by
  obtain ⟨L, hL⟩ := reach_walkTo hr
  obtain ⟨L', hL', hnd⟩ := walkTo_dedup L.length (le_refl _) hL
  obtain ⟨f, a0, b0, hfT, hft, hPa0, hPb0, hr1, hr2⟩ :=
    walkTo_swap P hL' hnd hPu hPv
  refine ⟨f, hfT, ⟨a0, b0, hft, hPa0, hPb0⟩, ?_⟩
  intro c hc x y hxy
  have hsubE : ∀ e ∈ T.erase f, e ∈ c :: T.erase f :=
    fun e he => List.mem_cons_of_mem _ he
  have hcuv : Reach (c :: T.erase f) u v :=
    Relation.ReflTransGen.single ⟨c, List.mem_cons_self _ _, hc⟩
  have hab : Reach (c :: T.erase f) a0 b0 :=
    ((reach_mono hsubE (reach_symm hr1)).trans hcuv).trans
      (reach_mono hsubE (reach_symm hr2))
  induction hxy with
  | refl => exact Relation.ReflTransGen.refl
  | @tail m z hxm hadj ih =>
    refine ih.trans ?_
    obtain ⟨e, he, ht⟩ := hadj
    by_cases hef : e = f
    · subst hef
      rcases edgeTouches_pair ht hft with ⟨h1, h2⟩ | ⟨h1, h2⟩
      · subst h1; subst h2
        exact hab
      · subst h1; subst h2
        exact reach_symm hab
    · exact Relation.ReflTransGen.single
        ⟨e, List.mem_cons_of_mem _ ((List.mem_erase_of_ne hef).2 he), ht⟩

/-! ## Correctness of the computable reachability check -/

theorem growOnce_superset {es : List Edge} {s : List Nat} :
    ∀ z ∈ s, z ∈ growOnce es s := by
  induction es with
  | nil => exact fun z hz => hz
  | cons e rest ih =>
    intro z hz
    show z ∈ (if e.1 ∈ growOnce rest s then _ else _)
    split_ifs <;>
      first
      | exact List.mem_cons_of_mem _ (ih z hz)
      | exact ih z hz

theorem growOnce_sound {es0 : List Edge} {a : Nat} :
    ∀ (es : List Edge) (s : List Nat), (∀ e ∈ es, e ∈ es0) →
      (∀ z ∈ s, Reach es0 a z) → ∀ z ∈ growOnce es s, Reach es0 a z := by
  intro es
  induction es with
  | nil => exact fun s _ hs => hs
  | cons e rest ih =>
    intro s hsub hs z hz
    have hrest : ∀ z ∈ growOnce rest s, Reach es0 a z :=
      ih s (fun e' he' => hsub e' (List.mem_cons_of_mem _ he')) hs
    have he0 : e ∈ es0 := hsub e (List.mem_cons_self _ _)
    revert hz
    show z ∈ (if e.1 ∈ growOnce rest s then _ else _) → _
    split_ifs with h1 h2
    · intro hz
      rcases List.mem_cons.1 hz with rfl | hz
      · exact (hrest _ h1).tail ⟨e, he0, Or.inl ⟨rfl, rfl⟩⟩
      · exact hrest _ hz
    · intro hz
      rcases List.mem_cons.1 hz with rfl | hz
      · exact (hrest _ h2).tail ⟨e, he0, Or.inr ⟨rfl, rfl⟩⟩
      · exact hrest _ hz
    · exact hrest z

theorem growOnce_step {es : List Edge} {s : List Nat} {x y : Nat}
    (hx : x ∈ s) (hadj : Adj es x y) : y ∈ growOnce es s := by
  obtain ⟨e, he, ht⟩ := hadj
  induction es with
  | nil => exact absurd he (List.not_mem_nil e)
  | cons e' rest ih =>
    show y ∈ (if e'.1 ∈ growOnce rest s then e'.2.1 :: growOnce rest s
      else if e'.2.1 ∈ growOnce rest s then e'.1 :: growOnce rest s
      else growOnce rest s)
    rcases List.mem_cons.1 he with rfl | he'
    · -- the witness edge is at the head
      have hxr : x ∈ growOnce rest s := growOnce_superset x hx
      rcases ht with ⟨h1, h2⟩ | ⟨h1, h2⟩
      · rw [h1, h2, if_pos hxr]
        exact List.mem_cons_self _ _
      · rw [h1, h2]
        by_cases hcond : y ∈ growOnce rest s
        · rw [if_pos hcond]
          exact List.mem_cons_of_mem _ hcond
        · rw [if_neg hcond, if_pos hxr]
          exact List.mem_cons_self _ _
    · have hyr : y ∈ growOnce rest s := ih he'
      split_ifs <;>
        first
        | exact List.mem_cons_of_mem _ hyr
        | exact hyr

theorem iterate_growOnce_superset {es : List Edge} {s : List Nat}
    {z : Nat} (hz : z ∈ s) : ∀ n, z ∈ (growOnce es)^[n] s := by
  intro n
  induction n generalizing s hz with
  | zero => exact hz
  | succ n ih =>
    rw [Function.iterate_succ_apply]
    exact ih (growOnce_superset z hz)

theorem iterate_growOnce_mono_count {es : List Edge} {s : List Nat}
    {z : Nat} {k : Nat} (hz : z ∈ (growOnce es)^[k] s) :
    ∀ n, k ≤ n → z ∈ (growOnce es)^[n] s := by
  intro n hkn
  obtain ⟨j, rfl⟩ := Nat.exists_eq_add_of_le hkn
  clear hkn
  induction j with
  | zero => exact hz
  | succ j ih =>
    rw [show k + (j + 1) = (k + j) + 1 by omega, Function.iterate_succ_apply']
    exact growOnce_superset _ ih

theorem walkTo_iterate {es : List Edge} :
    ∀ {x b : Nat} {L : List Nat} {s : List Nat}, WalkTo es x b L → x ∈ s →
      b ∈ (growOnce es)^[L.length] s := by
  intro x b L s h
  induction h generalizing s with
  | nil =>
    intro hx
    exact iterate_growOnce_superset hx 1
  | @cons a m c L hadj hsub ih =>
    intro ha
    have hm : m ∈ growOnce es s := growOnce_step ha hadj
    have := ih hm
    rw [List.length_cons, Function.iterate_succ_apply]
    exact this

/-- The vertices mentioned by the edge list. -/
def vertsOf (es : List Edge) : List Nat :=
  match es with
  | [] => []
  | e :: rest => e.1 :: e.2.1 :: vertsOf rest

theorem mem_vertsOf {es : List Edge} {e : Edge} (he : e ∈ es) :
    e.1 ∈ vertsOf es ∧ e.2.1 ∈ vertsOf es := by
  induction es with
  | nil => exact absurd he (List.not_mem_nil e)
  | cons e' rest ih =>
    rcases List.mem_cons.1 he with rfl | he'
    · exact ⟨List.mem_cons_self _ _, List.mem_cons_of_mem _ (List.mem_cons_self _ _)⟩
    · obtain ⟨h1, h2⟩ := ih he'
      exact ⟨List.mem_cons_of_mem _ (List.mem_cons_of_mem _ h1),
             List.mem_cons_of_mem _ (List.mem_cons_of_mem _ h2)⟩

theorem length_vertsOf (es : List Edge) : (vertsOf es).length = 2 * es.length := by
  induction es with
  | nil => rfl
  | cons e rest ih =>
    show (vertsOf rest).length + 1 + 1 = _
    rw [ih]
    simp [List.length_cons]
    omega

theorem walkTo_subset_verts {es : List Edge} :
    ∀ {a b : Nat} {L : List Nat}, WalkTo es a b L →
      ∀ z ∈ L, z = a ∨ z ∈ vertsOf es := by
  intro a b L h
  induction h with
  | nil =>
    intro z hz
    exact Or.inl (List.mem_singleton.1 hz)
  | @cons a m c L hadj hsub ih =>
    intro z hz
    rcases List.mem_cons.1 hz with rfl | hz
    · exact Or.inl rfl
    · rcases ih z hz with rfl | hv
      · obtain ⟨e, he, ht⟩ := hadj
        rcases ht with ⟨-, h2⟩ | ⟨h2, -⟩
        · exact Or.inr (h2 ▸ (mem_vertsOf he).2)
        · exact Or.inr (h2 ▸ (mem_vertsOf he).1)
      · exact Or.inr hv

theorem nodup_length_le_of_subset {L M : List Nat} (hnd : L.Nodup)
    (hsub : ∀ z ∈ L, z ∈ M) : L.length ≤ M.length := by
  calc L.length = L.toFinset.card := (List.toFinset_card_of_nodup hnd).symm
    _ ≤ M.toFinset.card := Finset.card_le_card (fun z hz =>
        List.mem_toFinset.2 (hsub z (List.mem_toFinset.1 hz)))
    _ ≤ M.length := M.toFinset_card_le

theorem reachSet_sound {es : List Edge} {a : Nat} :
    ∀ z ∈ reachSet es a, Reach es a z := by
  unfold reachSet
  generalize (2 * es.length + 1) = n
  induction n with
  | zero =>
    intro z hz
    have : z = a := List.mem_singleton.1 hz
    exact this ▸ Relation.ReflTransGen.refl
  | succ n ih =>
    intro z hz
    rw [Function.iterate_succ_apply'] at hz
    exact growOnce_sound es _ (fun e he => he) ih z hz

theorem reachSet_complete {es : List Edge} {a b : Nat} (h : Reach es a b) :
    b ∈ reachSet es a := by
  obtain ⟨L, hL⟩ := reach_walkTo h
  obtain ⟨L', hL', hnd⟩ := walkTo_dedup L.length (le_refl _) hL
  have hsub : ∀ z ∈ L', z ∈ a :: vertsOf es := by
    intro z hz
    rcases walkTo_subset_verts hL' z hz with rfl | hv
    · exact List.mem_cons_self _ _
    · exact List.mem_cons_of_mem _ hv
  have hlen : L'.length ≤ 2 * es.length + 1 := by
    have := nodup_length_le_of_subset hnd hsub
    rw [List.length_cons, length_vertsOf] at this
    omega
  have hb : b ∈ (growOnce es)^[L'.length] [a] :=
    walkTo_iterate hL' (List.mem_singleton.2 rfl)
  exact iterate_growOnce_mono_count hb _ hlen

instance (es : List Edge) (a b : Nat) : Decidable (Reach es a b) :=
  decidable_of_iff (b ∈ reachSet es a)
    ⟨fun h => reachSet_sound b h, fun h => reachSet_complete h⟩

instance (g : Graph) : Decidable (ConnectedG g) := by
  unfold ConnectedG
  infer_instance

/-! ## Union-find: termination and structure of `find` -/

/-- `Climbs parent i r k`: following `parent` links from `i` reaches the
fixpoint (root) `r` after exactly `k` steps. -/
inductive Climbs (parent : List Nat) : Nat → Nat → Nat → Prop
  | root (i : Nat) : parent.getD i i = i → Climbs parent i i 0
  | step {i r k : Nat} : parent.getD i i ≠ i →
      Climbs parent (parent.getD i i) r k → Climbs parent i r (k + 1)

theorem climbs_deterministic {parent : List Nat} :
    ∀ {i r1 k1 r2 k2 : Nat}, Climbs parent i r1 k1 → Climbs parent i r2 k2 →
      r1 = r2 ∧ k1 = k2 := by
  intro i r1 k1 r2 k2 h1
  induction h1 generalizing r2 k2 with
  | root i hfix =>
    intro h2
    cases h2 with
    | root _ _ => exact ⟨rfl, rfl⟩
    | step hne _ => exact absurd hfix hne
  | step hne hsub ih =>
    intro h2
    cases h2 with
    | root _ hfix => exact absurd hfix hne
    | step _ hsub2 =>
      obtain ⟨e1, e2⟩ := ih hsub2
      exact ⟨e1, by omega⟩

theorem climbs_findAux {parent : List Nat} :
    ∀ {i r k : Nat}, Climbs parent i r k → ∀ fuel, k < fuel →
      findAux fuel parent i = r := by
  intro i r k h
  induction h with
  | root i hfix =>
    intro fuel hk
    cases fuel with
    | zero => omega
    | succ f =>
      show (if parent.getD i i = i then i else findAux f parent (parent.getD i i)) = i
      rw [if_pos hfix]
  | @step i r k hne hsub ih =>
    intro fuel hk
    cases fuel with
    | zero => omega
    | succ f =>
      show (if parent.getD i i = i then i else findAux f parent (parent.getD i i)) = r
      rw [if_neg hne]
      exact ih f (by omega)

theorem climbs_root_fix {parent : List Nat} :
    ∀ {i r k : Nat}, Climbs parent i r k → parent.getD r r = r := by
  intro i r k h
  induction h with
  | root _ hfix => exact hfix
  | step _ _ ih => exact ih

theorem climbs_root_lt {parent : List Nat} {V : Nat}
    (hbnd : ∀ j, j < V → parent.getD j j < V) :
    ∀ {i r k : Nat}, Climbs parent i r k → i < V → r < V := by
  intro i r k h
  induction h with
  | root _ _ => exact fun hi => hi
  | @step i r k hne hsub ih => exact fun hi => ih (hbnd i hi)

theorem climbs_chain {parent : List Nat} {V : Nat}
    (hbnd : ∀ j, j < V → parent.getD j j < V) :
    ∀ {i r k : Nat}, Climbs parent i r k → i < V →
      ∃ L : List Nat, L.length = k + 1 ∧ L.Nodup ∧ (∀ z ∈ L, z < V) ∧
        (∀ z ∈ L, ∃ k', k' ≤ k ∧ Climbs parent z r k') := by
  intro i r k h
  induction h with
  | root i hfix =>
    intro hi
    refine ⟨[i], rfl, List.nodup_singleton i, ?_, ?_⟩
    · intro z hz
      rw [List.mem_singleton.1 hz]
      exact hi
    · intro z hz
      rw [List.mem_singleton.1 hz]
      exact ⟨0, le_refl 0, Climbs.root i hfix⟩
  | @step i r k hne hsub ih =>
    intro hi
    obtain ⟨L, hL1, hL2, hL3, hL4⟩ := ih (hbnd i hi)
    have hiL : i ∉ L := by
      intro hmem
      obtain ⟨k', hk', hc⟩ := hL4 i hmem
      obtain ⟨-, hkk⟩ := climbs_deterministic (Climbs.step hne hsub) hc
      omega
    refine ⟨i :: L, by simp [hL1], List.nodup_cons.2 ⟨hiL, hL2⟩, ?_, ?_⟩
    · intro z hz
      rcases List.mem_cons.1 hz with rfl | hz
      · exact hi
      · exact hL3 z hz
    · intro z hz
      rcases List.mem_cons.1 hz with rfl | hz
      · exact ⟨k + 1, le_refl _, Climbs.step hne hsub⟩
      · obtain ⟨k', hk', hc⟩ := hL4 z hz
        exact ⟨k', by omega, hc⟩

theorem climbs_bound {parent : List Nat} {V : Nat}
    (hbnd : ∀ j, j < V → parent.getD j j < V)
    {i r k : Nat} (h : Climbs parent i r k) (hi : i < V) : k < V := by
  obtain ⟨L, hL1, hL2, hL3, -⟩ := climbs_chain hbnd h hi
  have hle : L.length ≤ (List.range V).length :=
    nodup_length_le_of_subset hL2 (fun z hz => List.mem_range.2 (hL3 z hz))
  rw [hL1, List.length_range] at hle
  omega

/-- Well-formedness of a union-find `parent` list over `V` elements. -/
structure UFWf (V : Nat) (parent : List Nat) : Prop where
  len : parent.length = V
  bounded : ∀ j, j < V → parent.getD j j < V
  climbs : ∀ j, j < V → ∃ r k, Climbs parent j r k

theorem find_eq_of_climbs {V : Nat} {parent : List Nat} (hwf : UFWf V parent)
    {i r k : Nat} (hi : i < V) (h : Climbs parent i r k) :
    find parent i = r := by
  have hk : k < V := climbs_bound hwf.bounded h hi
  show findAux parent.length parent i = r
  rw [hwf.len]
  exact climbs_findAux h V hk

theorem find_climbs {V : Nat} {parent : List Nat} (hwf : UFWf V parent)
    {i : Nat} (hi : i < V) :
    ∃ k, Climbs parent i (find parent i) k := by
  obtain ⟨r, k, h⟩ := hwf.climbs i hi
  rw [find_eq_of_climbs hwf hi h]
  exact ⟨k, h⟩

theorem find_lt {V : Nat} {parent : List Nat} (hwf : UFWf V parent)
    {i : Nat} (hi : i < V) : find parent i < V := by
  obtain ⟨k, h⟩ := find_climbs hwf hi
  exact climbs_root_lt hwf.bounded h hi

theorem find_fix {V : Nat} {parent : List Nat} (hwf : UFWf V parent)
    {i : Nat} (hi : i < V) :
    parent.getD (find parent i) (find parent i) = find parent i := by
  obtain ⟨k, h⟩ := find_climbs hwf hi
  exact climbs_root_fix h

theorem find_of_fix {parent : List Nat} {x : Nat} (hx : parent.getD x x = x)
    (hxl : x < parent.length) : find parent x = x := by
  show findAux parent.length parent x = x
  obtain ⟨f, hf⟩ : ∃ f, parent.length = f + 1 := ⟨parent.length - 1, by omega⟩
  rw [hf]
  show (if parent.getD x x = x then x else findAux f parent (parent.getD x x)) = x
  rw [if_pos hx]

/-! ## Updating one entry of the `parent` list -/

theorem getD_set_self :
    ∀ (l : List Nat) (n a d : Nat), n < l.length → (l.set n a).getD n d = a := by
  intro l
  induction l with
  | nil =>
    intro n a d h
    exact absurd h (by simp)
  | cons x t ih =>
    intro n a d h
    cases n with
    | zero => rfl
    | succ m =>
      show (t.set m a).getD m d = a
      exact ih m a d (by simpa using h)

theorem getD_set_ne :
    ∀ (l : List Nat) (n m a d : Nat), n ≠ m → (l.set n a).getD m d = l.getD m d := by
  intro l
  induction l with
  | nil => intro n m a d _; cases n <;> rfl
  | cons x t ih =>
    intro n m a d hne
    cases n with
    | zero =>
      cases m with
      | zero => exact absurd rfl hne
      | succ j => rfl
    | succ i =>
      cases m with
      | zero => rfl
      | succ j =>
        show (t.set i a).getD j d = t.getD j d
        exact ih i j a d (fun h => hne (by rw [h]))

theorem getD_range {V i d : Nat} (h : i < V) : (List.range V).getD i d = i := by
  rw [List.getD_eq_getElem?_getD, List.getElem?_range h]
  rfl

/-- Transport of `Climbs` across redirecting the root `l` to the root `w`. -/
theorem climbs_set {parent : List Nat} {l w : Nat}
    (hl : parent.getD l l = l) (hw : parent.getD w w = w) (hlw : l ≠ w)
    (hlV : l < parent.length) :
    ∀ {i r k : Nat}, Climbs parent i r k →
      (r = l → Climbs (parent.set l w) i w (k + 1)) ∧
      (r ≠ l → Climbs (parent.set l w) i r k) := by
  intro i r k h
  induction h with
  | root i hfix =>
    by_cases hil : i = l
    · subst hil
      constructor
      · intro _
        refine Climbs.step ?_ ?_
        · rw [getD_set_self _ _ _ _ hlV]
          exact fun h => hlw h.symm
        · rw [getD_set_self _ _ _ _ hlV]
          exact Climbs.root w (by rw [getD_set_ne _ _ _ _ _ hlw]; exact hw)
      · intro hne
        exact absurd rfl hne
    · constructor
      · intro heq
        exact absurd heq hil
      · intro _
        exact Climbs.root i (by rw [getD_set_ne _ _ _ _ _ (fun h => hil h.symm)]; exact hfix)
  | @step i r k hne hsub ih =>
    have hil : i ≠ l := fun h => hne (by rw [h]; exact hl)
    have hset : (parent.set l w).getD i i = parent.getD i i :=
      getD_set_ne _ _ _ _ _ (fun h => hil h.symm)
    constructor
    · intro heq
      exact Climbs.step (by rw [hset]; exact hne) (by rw [hset]; exact (ih.1 heq))
    · intro hne2
      exact Climbs.step (by rw [hset]; exact hne) (by rw [hset]; exact (ih.2 hne2))

/-- Redirecting one root to another preserves well-formedness, and the new
`find` collapses the two classes. -/
theorem ufwf_set {V : Nat} {parent : List Nat} (hwf : UFWf V parent)
    {l w : Nat} (hl : parent.getD l l = l) (hw : parent.getD w w = w)
    (hlw : l ≠ w) (hlV : l < V) (hwV : w < V) :
    UFWf V (parent.set l w) ∧
    (∀ i, i < V → find (parent.set l w) i =
      (if find parent i = l then w else find parent i)) := by
  have hlen : l < parent.length := by rw [hwf.len]; exact hlV
  have hwf' : UFWf V (parent.set l w) := by
    refine ⟨by rw [List.length_set]; exact hwf.len, ?_, ?_⟩
    · intro j hj
      by_cases hjl : j = l
      · subst hjl
        rw [getD_set_self _ _ _ _ hlen]
        exact hwV
      · rw [getD_set_ne _ _ _ _ _ (fun h => hjl h.symm)]
        exact hwf.bounded j hj
    · intro j hj
      obtain ⟨r, k, hc⟩ := hwf.climbs j hj
      by_cases hrl : r = l
      · exact ⟨w, k + 1, (climbs_set hl hw hlw hlen hc).1 hrl⟩
      · exact ⟨r, k, (climbs_set hl hw hlw hlen hc).2 hrl⟩
  refine ⟨hwf', ?_⟩
  intro i hi
  obtain ⟨k, hc⟩ := find_climbs hwf hi
  by_cases hrl : find parent i = l
  · rw [if_pos hrl]
    exact find_eq_of_climbs hwf' hi ((climbs_set hl hw hlw hlen hc).1 hrl)
  · rw [if_neg hrl]
    exact find_eq_of_climbs hwf' hi ((climbs_set hl hw hlw hlen hc).2 hrl)

/-! ## Roots of the union-find state -/

/-- The set of union-find roots below `V`. -/
def rootsF (V : Nat) (parent : List Nat) : Finset Nat :=
  (Finset.range V).filter (fun j => parent.getD j j = j)

theorem rootsF_set {V : Nat} {parent : List Nat} {l w : Nat}
    (hlV : l < parent.length) (hlw : l ≠ w) :
    rootsF V (parent.set l w) = (rootsF V parent).erase l := by
  ext j
  simp only [rootsF, Finset.mem_filter, Finset.mem_erase, Finset.mem_range]
  by_cases hjl : j = l
  · subst hjl
    rw [getD_set_self _ _ _ _ hlV]
    constructor
    · rintro ⟨-, h⟩
      exact absurd h.symm hlw
    · rintro ⟨h, -⟩
      exact absurd rfl h
  · rw [getD_set_ne _ _ _ _ _ (fun h => hjl h.symm)]
    constructor
    · rintro ⟨h1, h2⟩
      exact ⟨hjl, h1, h2⟩
    · rintro ⟨-, h1, h2⟩
      exact ⟨h1, h2⟩

theorem mem_rootsF {V : Nat} {parent : List Nat} {j : Nat} :
    j ∈ rootsF V parent ↔ j < V ∧ parent.getD j j = j := by
  simp [rootsF, Finset.mem_filter, Finset.mem_range]

theorem union_fst_eq (parent rank : List Nat) (x y : Nat) :
    (union parent rank x y).1 =
      if rank.getD (find parent x) 0 < rank.getD (find parent y) 0 then
        parent.set (find parent x) (find parent y)
      else parent.set (find parent y) (find parent x) := by
  show (if rank.getD (find parent x) 0 < rank.getD (find parent y) 0 then
          (parent.set (find parent x) (find parent y), rank)
        else if rank.getD (find parent y) 0 < rank.getD (find parent x) 0 then
          (parent.set (find parent y) (find parent x), rank)
        else
          (parent.set (find parent y) (find parent x),
           rank.set (find parent x) (rank.getD (find parent x) 0 + 1))).1 = _
  split_ifs <;> rfl

/-- The two possible parent updates performed by `union` on two distinct
roots. -/
theorem union_fst_cases {parent rank : List Nat} {x y : Nat}
    (hfx : find parent x = x) (hfy : find parent y = y) :
    (union parent rank x y).1 = parent.set x y ∨
    (union parent rank x y).1 = parent.set y x := by
  rw [union_fst_eq, hfx, hfy]
  split_ifs
  · exact Or.inl rfl
  · exact Or.inr rfl

/-! ## Counting and weight-sum helpers -/

theorem mem_sortEdges {e : Edge} {l : List Edge} :
    e ∈ sortEdges l ↔ e ∈ l := (sortEdges_perm l).mem_iff

theorem count_le_of_subperm {l1 l2 : List Edge} (h : l1.Subperm l2) (z : Edge) :
    l1.count z ≤ l2.count z := by
  rcases Classical.em (z ∈ l1) with hz | hz
  · exact List.subperm_ext_iff.1 h z hz
  · rw [List.count_eq_zero_of_not_mem hz]
    exact Nat.zero_le _

theorem not_subperm_count {l1 l2 : List Edge} (h : ¬ l1.Subperm l2) :
    ∃ z ∈ l1, l2.count z < l1.count z := by
  by_contra hall
  push_neg at hall
  exact h (List.subperm_ext_iff.2 (fun z hz => hall z hz))

theorem weightSum_append (l1 l2 : List Edge) :
    weightSum (l1 ++ l2) = weightSum l1 + weightSum l2 := by
  unfold weightSum
  rw [List.map_append, List.sum_append]

theorem weightSum_cons (e : Edge) (l : List Edge) :
    weightSum (e :: l) = e.2.2 + weightSum l := by
  unfold weightSum
  rw [List.map_cons, List.sum_cons]

theorem weightSum_perm {l1 l2 : List Edge} (h : l1.Perm l2) :
    weightSum l1 = weightSum l2 :=
  List.Perm.sum_eq (h.map _)

theorem weightSum_erase {f : Edge} {l : List Edge} (hf : f ∈ l) :
    weightSum l = f.2.2 + weightSum (l.erase f) := by
  rw [weightSum_perm (List.perm_cons_erase hf), weightSum_cons]

theorem subperm_length_perm {l1 l2 : List Edge} (h : l1.Subperm l2)
    (hlen : l2.length ≤ l1.length) : l1.Perm l2 := by
  obtain ⟨l, hperm, hsub⟩ := h
  have := List.Sublist.eq_of_length hsub (le_antisymm (hsub.length_le)
    (le_trans hlen (hperm.length_eq ▸ le_refl _)))
  exact hperm.symm.trans (this ▸ List.Perm.refl l)

/-! ## The kruskal loop invariant -/

/-- Invariant of the edge-scanning loop of `kruskal`, with `scanned` the
already-consumed prefix of the sorted edge list and `result` the accepted
edges.  The `e` counter of the loop is `result.length`. -/
structure LoopInv (V : Nat) (input scanned remaining : List Edge)
    (parent : List Nat) (result : List Edge) : Prop where
  sorted_eq : sortEdges input = scanned ++ remaining
  valid : ValidEdges V input
  ufwf : UFWf V parent
  sound : ∀ i, i < V → Reach result i (find parent i)
  complete : ∀ i j, i < V → j < V → Reach result i j →
    find parent i = find parent j
  scanned_flat : ∀ e ∈ scanned, find parent e.1 = find parent e.2.1
  res_sub : result.Sublist scanned
  roots_card : (rootsF V parent).card + result.length = V
  opt : ∀ T, IsSpanTree V input T → ∃ T2, IsSpanTree V input T2 ∧
    result.Subperm T2 ∧ weightSum T2 ≤ weightSum T

theorem loopInv_valid_scanned {V input scanned remaining parent result}
    (inv : LoopInv V input scanned remaining parent result) :
    ∀ e ∈ scanned ++ remaining, e.1 < V ∧ e.2.1 < V := by
  intro e he
  rw [← inv.sorted_eq] at he
  exact inv.valid e (mem_sortEdges.1 he)

/-- Two vertices have the same root exactly when the accepted edges join
them. -/
theorem loopInv_find_iff {V input scanned remaining parent result}
    (inv : LoopInv V input scanned remaining parent result)
    {i j : Nat} (hi : i < V) (hj : j < V) :
    find parent i = find parent j ↔ Reach result i j := by
  constructor
  · intro heq
    exact (inv.sound i hi).trans (heq ▸ reach_symm (inv.sound j hj))
  · exact inv.complete i j hi hj

theorem loopInv_init (V : Nat) (input : List Edge) (hval : ValidEdges V input) :
    LoopInv V input [] (sortEdges input) (List.range V) [] := by
  have hwf : UFWf V (List.range V) := by
    refine ⟨List.length_range V, ?_, ?_⟩
    · intro j hj
      rw [getD_range hj]
      exact hj
    · intro j hj
      exact ⟨j, 0, Climbs.root j (getD_range hj)⟩
  have hfind : ∀ i, i < V → find (List.range V) i = i := by
    intro i hi
    exact find_of_fix (getD_range hi) (by rw [List.length_range]; exact hi)
  refine ⟨rfl, hval, hwf, ?_, ?_, ?_, List.Sublist.refl [], ?_, ?_⟩
  · intro i hi
    rw [hfind i hi]
    exact Relation.ReflTransGen.refl
  · intro i j hi hj hr
    rw [reach_nil hr]
  · intro e he
    exact absurd he (List.not_mem_nil e)
  · have : rootsF V (List.range V) = Finset.range V := by
      ext j
      simp only [mem_rootsF, Finset.mem_range]
      constructor
      · exact fun h => h.1
      · intro hj
        exact ⟨hj, getD_range hj⟩
    rw [this, Finset.card_range, List.length_nil]
    omega
  · intro T hT
    exact ⟨T, hT, List.nil_subperm, le_refl _⟩

/-- What holds when the loop stops because `e` has reached `V - 1`. -/
theorem loopInv_exit {V : Nat} {input scanned remaining : List Edge}
    {parent : List Nat} {result : List Edge}
    (inv : LoopInv V input scanned remaining parent result)
    (hstop : ¬ result.length < V - 1) :
    result.length = V - 1 ∧
    result.Pairwise weightLE ∧
    IsSpanTree V input result ∧
    (∀ T, IsSpanTree V input T → weightSum result ≤ weightSum T) ∧
    (∀ u, u < V → ∀ v, v < V → Reach input u v) := by
  have hsubSorted : result.Sublist (sortEdges input) := by
    rw [inv.sorted_eq]
    exact inv.res_sub.trans (List.sublist_append_left scanned remaining)
  have hpair : result.Pairwise weightLE :=
    (sortEdges_sorted input).sublist hsubSorted
  have hsubperm : result.Subperm input :=
    hsubSorted.subperm.trans (sortEdges_perm input).subperm
  rcases Nat.eq_zero_or_pos V with hV | hV
  · subst hV
    have hres0 : result.length = 0 := by
      have := inv.roots_card
      omega
    have hresnil : result = [] := List.length_eq_zero.1 hres0
    refine ⟨by omega, hpair,
      ⟨hsubperm, fun u hu => absurd hu (Nat.not_lt_zero u), by omega⟩, ?_,
      fun u hu => absurd hu (Nat.not_lt_zero u)⟩
    intro T hT
    have hT0 : T = [] := List.length_eq_zero.1 (by
      have := hT.2.2
      simpa using this)
    rw [hresnil, hT0]
  · have hone : find parent 0 ∈ rootsF V parent :=
      mem_rootsF.2 ⟨find_lt inv.ufwf hV, find_fix inv.ufwf hV⟩
    have hcard_pos : 0 < (rootsF V parent).card := Finset.card_pos.2 ⟨_, hone⟩
    have hlen : result.length = V - 1 := by
      have := inv.roots_card
      omega
    have hcard1 : (rootsF V parent).card = 1 := by
      have := inv.roots_card
      omega
    obtain ⟨r, hr⟩ := Finset.card_eq_one.1 hcard1
    have hfindr : ∀ i, i < V → find parent i = r := by
      intro i hi
      have hmem : find parent i ∈ rootsF V parent :=
        mem_rootsF.2 ⟨find_lt inv.ufwf hi, find_fix inv.ufwf hi⟩
      rw [hr] at hmem
      exact Finset.mem_singleton.1 hmem
    have hspans : SpansUpTo V result := by
      intro u hu v hv
      exact (loopInv_find_iff inv hu hv).1 ((hfindr u hu).trans (hfindr v hv).symm)
    refine ⟨hlen, hpair, ⟨hsubperm, hspans, hlen⟩, ?_, ?_⟩
    · intro T hT
      obtain ⟨T2, hT2, hsub2, hle2⟩ := inv.opt T hT
      have hperm : result.Perm T2 :=
        subperm_length_perm hsub2 (by rw [hT2.2.2, hlen])
      rw [weightSum_perm hperm]
      exact hle2
    · intro u hu v hv
      refine reach_mono ?_ (hspans u hu v hv)
      intro e he
      exact mem_sortEdges.1 (hsubSorted.subset he)

/-- Discarding an edge whose endpoints already share a root preserves the
invariant. -/
theorem loopInv_discard {V : Nat} {input scanned : List Edge}
    {parent : List Nat} {result : List Edge} {c : Edge} {rest : List Edge}
    (inv : LoopInv V input scanned (c :: rest) parent result)
    (heq : find parent c.1 = find parent c.2.1) :
    LoopInv V input (scanned ++ [c]) rest parent result := by
  refine ⟨?_, inv.valid, inv.ufwf, inv.sound, inv.complete, ?_, ?_,
    inv.roots_card, inv.opt⟩
  · rw [inv.sorted_eq, List.append_assoc]
    rfl
  · intro e he
    rcases List.mem_append.1 he with he | he
    · exact inv.scanned_flat e he
    · rw [List.mem_singleton.1 he]
      exact heq
  · exact inv.res_sub.trans (List.sublist_append_left scanned [c])

theorem count_cons_edge (z c : Edge) (l : List Edge) :
    (c :: l).count z = l.count z + if z = c then 1 else 0 := by
  rw [List.count_cons]
  by_cases h : z = c
  · simp [h]
  · have h2 : ¬ c = z := fun hh => h hh.symm
    simp [h, h2]

/-- Accepting the edge `c` preserves the minimum-spanning-tree extension
property: any spanning tree at least as light as `T` and containing the
old accepted edges can be exchanged into one also containing `c`. -/
theorem opt_accept {V : Nat} {input scanned : List Edge}
    {parent : List Nat} {result : List Edge} {c : Edge} {rest : List Edge}
    (inv : LoopInv V input scanned (c :: rest) parent result)
    (hne : find parent c.1 ≠ find parent c.2.1) :
    ∀ T, IsSpanTree V input T → ∃ T2, IsSpanTree V input T2 ∧
      (result ++ [c]).Subperm T2 ∧ weightSum T2 ≤ weightSum T := by
  have hcmem : c ∈ scanned ++ (c :: rest) :=
    List.mem_append.2 (Or.inr (List.mem_cons_self _ _))
  have hu : c.1 < V := (loopInv_valid_scanned inv c hcmem).1
  have hv : c.2.1 < V := (loopInv_valid_scanned inv c hcmem).2
  have hcount_app : ∀ z : Edge, (result ++ [c]).count z =
      result.count z + if z = c then 1 else 0 := by
    intro z
    rw [List.count_append]
    congr 1
    rw [count_cons_edge, List.count_nil]
    omega
  intro T hT
  obtain ⟨T2, hT2, hsubR, hwle⟩ := inv.opt T hT
  by_cases hcs : (result ++ [c]).Subperm T2
  · exact ⟨T2, hT2, hcs, hwle⟩
  have hnr : ¬ Reach result c.1 c.2.1 := fun hr => hne (inv.complete _ _ hu hv hr)
  have hreachT2 : Reach T2 c.1 c.2.1 := hT2.2.1 c.1 hu c.2.1 hv
  obtain ⟨f, hfT2, ⟨a0, b0, hft, hPa0, hPb0⟩, hlift⟩ :=
    reach_exchange (fun z => Reach result c.1 z) hreachT2
      Relation.ReflTransGen.refl hnr
  -- `f` joins the accepted class of `c.1` to its outside, so it is unscanned
  have hfsc : f ∉ scanned := by
    intro hmem
    have hVf := loopInv_valid_scanned inv f (List.mem_append.2 (Or.inl hmem))
    have hreachf : Reach result f.1 f.2.1 :=
      (loopInv_find_iff inv hVf.1 hVf.2).1 (inv.scanned_flat f hmem)
    have hab : Reach result a0 b0 := by
      rcases hft with ⟨h1, h2⟩ | ⟨h1, h2⟩
      · rw [← h1, ← h2]
        exact hreachf
      · rw [← h1, ← h2]
        exact reach_symm hreachf
    exact hPb0 (hPa0.trans hab)
  have hcResT2 : ∀ z, result.count z ≤ T2.count z := count_le_of_subperm hsubR
  have hcT2c : T2.count c ≤ result.count c := by
    obtain ⟨z, hz, hlt⟩ := not_subperm_count hcs
    rw [hcount_app] at hlt
    by_cases hzc : z = c
    · subst hzc
      rw [if_pos rfl] at hlt
      omega
    · rw [if_neg hzc] at hlt
      have := hcResT2 z
      omega
  have hfc : f ≠ c := by
    intro hfc
    subst hfc
    have h1 : 0 < T2.count f := List.count_pos_iff.2 hfT2
    have h2 : f ∈ result := List.count_pos_iff.1 (by omega)
    exact hfsc (inv.res_sub.subset h2)
  have hfres : f ∉ result := fun hmem => hfsc (inv.res_sub.subset hmem)
  have hf_in_rest : f ∈ rest := by
    have hfi : f ∈ input := hT2.1.subset hfT2
    have hfi2 : f ∈ scanned ++ (c :: rest) := by
      rw [← inv.sorted_eq]
      exact mem_sortEdges.2 hfi
    rcases List.mem_append.1 hfi2 with h | h
    · exact absurd h hfsc
    · rcases List.mem_cons.1 h with h | h
      · exact absurd h hfc
      · exact h
  have hwcf : c.2.2 ≤ f.2.2 := by
    have hp : (scanned ++ (c :: rest)).Pairwise weightLE := by
      rw [← inv.sorted_eq]
      exact sortEdges_sorted input
    have hp2 : (c :: rest).Pairwise weightLE := (List.pairwise_append.1 hp).2.1
    exact (List.pairwise_cons.1 hp2).1 f hf_in_rest
  have hlift' := hlift c (Or.inl ⟨rfl, rfl⟩)
  have herase_len : (T2.erase f).length = T2.length - 1 := List.length_erase_of_mem hfT2
  have hT2pos : 0 < T2.length := List.length_pos.2 (by
    intro hnil
    rw [hnil] at hfT2
    exact (List.not_mem_nil f) hfT2)
  have hlen3 : (c :: T2.erase f).length = V - 1 := by
    rw [List.length_cons, herase_len, ← hT2.2.2]
    omega
  have hspan3 : SpansUpTo V (c :: T2.erase f) :=
    fun u hu2 v hv2 => hlift' u v (hT2.2.1 u hu2 v hv2)
  have hcT2in : ∀ z, T2.count z ≤ input.count z := count_le_of_subperm hT2.1
  have hcfne : (T2.erase f).count c = T2.count c :=
    List.count_erase_of_ne (fun h => hfc h.symm) _
  have hcin : ∀ z : Edge, scanned.count z + (c :: rest).count z = input.count z := by
    intro z
    rw [← List.count_append, ← inv.sorted_eq]
    exact (sortEdges_perm input).count_eq z
  have hsub3 : (c :: T2.erase f).Subperm input := by
    apply List.subperm_ext_iff.2
    intro z hz
    rw [count_cons_edge]
    by_cases hzc : z = c
    · rw [hzc, if_pos rfl, hcfne]
      have h2 : 1 ≤ (c :: rest).count c := by
        rw [count_cons_edge, if_pos rfl]
        omega
      have h3 : result.count c ≤ scanned.count c := inv.res_sub.count_le c
      have h4 := hcin c
      omega
    · rw [if_neg hzc]
      by_cases hzf : z = f
      · rw [hzf, List.count_erase_self]
        have := hcT2in f
        omega
      · rw [List.count_erase_of_ne hzf]
        have := hcT2in z
        omega
  have hsubR3 : (result ++ [c]).Subperm (c :: T2.erase f) := by
    apply List.subperm_ext_iff.2
    intro z hz
    rw [hcount_app, count_cons_edge]
    by_cases hzc : z = c
    · rw [hzc, if_pos rfl, hcfne]
      have := hcResT2 c
      omega
    · rw [if_neg hzc]
      by_cases hzf : z = f
      · rw [hzf]
        have h0 : result.count f = 0 := List.count_eq_zero_of_not_mem hfres
        have h1 : (T2.erase f).count f = T2.count f - 1 := List.count_erase_self f T2
        omega
      · rw [List.count_erase_of_ne hzf]
        have := hcResT2 z
        omega
  have hw3 : weightSum (c :: T2.erase f) ≤ weightSum T2 := by
    rw [weightSum_cons, weightSum_erase hfT2]
    linarith
  exact ⟨c :: T2.erase f, ⟨hsub3, hspan3, hlen3⟩, hsubR3, le_trans hw3 hwle⟩

/-- Accepting edge `c` (distinct roots) and redirecting root `l` to root
`w0` — where `{l, w0}` are the two roots of `c`'s endpoints in either
order — preserves the loop invariant. -/
theorem loopInv_accept_set {V : Nat} {input scanned : List Edge}
    {parent : List Nat} {result : List Edge} {c : Edge} {rest : List Edge}
    (inv : LoopInv V input scanned (c :: rest) parent result)
    (hne : find parent c.1 ≠ find parent c.2.1)
    {l w0 : Nat}
    (hcase : (l = find parent c.1 ∧ w0 = find parent c.2.1) ∨
             (l = find parent c.2.1 ∧ w0 = find parent c.1)) :
    LoopInv V input (scanned ++ [c]) rest (parent.set l w0) (result ++ [c]) := by
  have hcmem : c ∈ scanned ++ (c :: rest) :=
    List.mem_append.2 (Or.inr (List.mem_cons_self _ _))
  have hu : c.1 < V := (loopInv_valid_scanned inv c hcmem).1
  have hv : c.2.1 < V := (loopInv_valid_scanned inv c hcmem).2
  have hlroot : parent.getD l l = l := by
    rcases hcase with ⟨hl, -⟩ | ⟨hl, -⟩ <;> rw [hl]
    · exact find_fix inv.ufwf hu
    · exact find_fix inv.ufwf hv
  have hwroot : parent.getD w0 w0 = w0 := by
    rcases hcase with ⟨-, hw⟩ | ⟨-, hw⟩ <;> rw [hw]
    · exact find_fix inv.ufwf hv
    · exact find_fix inv.ufwf hu
  have hlw : l ≠ w0 := by
    rcases hcase with ⟨hl, hw⟩ | ⟨hl, hw⟩ <;> rw [hl, hw]
    · exact hne
    · exact fun h => hne h.symm
  have hlV : l < V := by
    rcases hcase with ⟨hl, -⟩ | ⟨hl, -⟩ <;> rw [hl]
    · exact find_lt inv.ufwf hu
    · exact find_lt inv.ufwf hv
  have hwV : w0 < V := by
    rcases hcase with ⟨-, hw⟩ | ⟨-, hw⟩ <;> rw [hw]
    · exact find_lt inv.ufwf hv
    · exact find_lt inv.ufwf hu
  obtain ⟨hwf', hcollapse⟩ := ufwf_set inv.ufwf hlroot hwroot hlw hlV hwV
  have hfu' : find (parent.set l w0) c.1 = w0 := by
    rw [hcollapse c.1 hu]
    rcases hcase with ⟨hl, hw⟩ | ⟨hl, hw⟩
    · rw [hl, if_pos rfl]
    · rw [hl, if_neg hne, hw]
  have hfv' : find (parent.set l w0) c.2.1 = w0 := by
    rw [hcollapse c.2.1 hv]
    rcases hcase with ⟨hl, hw⟩ | ⟨hl, hw⟩
    · rw [hl, if_neg (fun h => hne h.symm), hw]
    · rw [hl, if_pos rfl]
  have hsubA : ∀ e ∈ result, e ∈ result ++ [c] :=
    fun e he => List.mem_append.2 (Or.inl he)
  have hcA : Reach (result ++ [c]) c.1 c.2.1 :=
    Relation.ReflTransGen.single
      ⟨c, List.mem_append.2 (Or.inr (List.mem_singleton.2 rfl)), Or.inl ⟨rfl, rfl⟩⟩
  have hlwreach : Reach (result ++ [c]) l w0 := by
    have huchain : Reach (result ++ [c]) (find parent c.1) (find parent c.2.1) :=
      ((reach_mono hsubA (reach_symm (inv.sound c.1 hu))).trans hcA).trans
        (reach_mono hsubA (inv.sound c.2.1 hv))
    rcases hcase with ⟨hl, hw⟩ | ⟨hl, hw⟩
    · rw [hl, hw]
      exact huchain
    · rw [hl, hw]
      exact reach_symm huchain
  refine ⟨?_, inv.valid, hwf', ?_, ?_, ?_, ?_, ?_, opt_accept inv hne⟩
  · rw [inv.sorted_eq, List.append_assoc]
    rfl
  · -- sound
    intro i hi
    rw [hcollapse i hi]
    by_cases hil : find parent i = l
    · rw [if_pos hil]
      exact ((reach_mono hsubA (inv.sound i hi)).trans (hil ▸ hlwreach))
    · rw [if_neg hil]
      exact reach_mono hsubA (inv.sound i hi)
  · -- complete
    intro i j hi hj hr
    rw [hcollapse i hi, hcollapse j hj]
    have hr' : Reach (result ++ [c]) i j := hr
    rcases reach_append_single.1 hr' with hr0 | ⟨h1, h2⟩ | ⟨h1, h2⟩
    · rw [inv.complete i j hi hj hr0]
    · have e1 : find parent i = find parent c.1 := inv.complete i c.1 hi hu h1
      have e2 : find parent c.2.1 = find parent j := inv.complete c.2.1 j hv hj h2
      rw [e1, ← e2]
      rcases hcase with ⟨hl, hw⟩ | ⟨hl, hw⟩
      · rw [hl, if_pos rfl, if_neg (fun h => hne h.symm), hw]
      · rw [hl, if_neg hne, if_pos rfl, hw]
    · have e1 : find parent i = find parent c.2.1 := inv.complete i c.2.1 hi hv h1
      have e2 : find parent c.1 = find parent j := inv.complete c.1 j hu hj h2
      rw [e1, ← e2]
      rcases hcase with ⟨hl, hw⟩ | ⟨hl, hw⟩
      · rw [hl, if_neg (fun h => hne h.symm), if_pos rfl, hw]
      · rw [hl, if_pos rfl, if_neg hne, hw]
  · -- scanned_flat
    intro e he
    rcases List.mem_append.1 he with he | he
    · have hV1 := (loopInv_valid_scanned inv e (List.mem_append.2 (Or.inl he))).1
      have hV2 := (loopInv_valid_scanned inv e (List.mem_append.2 (Or.inl he))).2
      rw [hcollapse e.1 hV1, hcollapse e.2.1 hV2, inv.scanned_flat e he]
    · rw [List.mem_singleton.1 he, hfu', hfv']
  · -- result sublist of scanned
    exact List.Sublist.append inv.res_sub (List.Sublist.refl [c])
  · -- root count
    have hroots : rootsF V (parent.set l w0) = (rootsF V parent).erase l :=
      rootsF_set (by rw [inv.ufwf.len]; exact hlV) hlw
    have hlmem : l ∈ rootsF V parent := mem_rootsF.2 ⟨hlV, hlroot⟩
    have hcard : ((rootsF V parent).erase l).card = (rootsF V parent).card - 1 :=
      Finset.card_erase_of_mem hlmem
    have hpos : 0 < (rootsF V parent).card := Finset.card_pos.2 ⟨l, hlmem⟩
    have hold := inv.roots_card
    rw [hroots, hcard, List.length_append, List.length_singleton]
    omega

/-- The invariant is preserved by the acceptance step exactly as `kruskal`
performs it, whatever the ranks are. -/
theorem loopInv_accept {V : Nat} {input scanned : List Edge}
    {parent rank : List Nat} {result : List Edge} {c : Edge} {rest : List Edge}
    (inv : LoopInv V input scanned (c :: rest) parent result)
    (hne : find parent c.1 ≠ find parent c.2.1) :
    LoopInv V input (scanned ++ [c]) rest
      (union parent rank (find parent c.1) (find parent c.2.1)).1
      (result ++ [c]) := by
  have hcmem : c ∈ scanned ++ (c :: rest) :=
    List.mem_append.2 (Or.inr (List.mem_cons_self _ _))
  have hu := (loopInv_valid_scanned inv c hcmem).1
  have hv := (loopInv_valid_scanned inv c hcmem).2
  have hfx : find parent (find parent c.1) = find parent c.1 :=
    find_of_fix (find_fix inv.ufwf hu)
      (by rw [inv.ufwf.len]; exact find_lt inv.ufwf hu)
  have hfy : find parent (find parent c.2.1) = find parent c.2.1 :=
    find_of_fix (find_fix inv.ufwf hv)
      (by rw [inv.ufwf.len]; exact find_lt inv.ufwf hv)
  rcases @union_fst_cases parent rank _ _ hfx hfy with hP | hP <;> rw [hP]
  · exact loopInv_accept_set inv hne (Or.inl ⟨rfl, rfl⟩)
  · exact loopInv_accept_set inv hne (Or.inr ⟨rfl, rfl⟩)

/-! ## The two master runs of the scanning loop -/

/-- Whenever the loop returns a result under the invariant, that result is
a minimum spanning tree, and the graph must have been connected. -/
theorem kruskalGo_some {V : Nat} {input : List Edge} :
    ∀ (remaining scanned : List Edge) (parent rank : List Nat)
      (result : List Edge),
      LoopInv V input scanned remaining parent result →
      ∀ r, kruskalGo V remaining parent rank result.length result = some r →
        r.length = V - 1 ∧ r.Pairwise weightLE ∧ IsSpanTree V input r ∧
        (∀ T, IsSpanTree V input T → weightSum r ≤ weightSum T) ∧
        (∀ u, u < V → ∀ v, v < V → Reach input u v) := by
  intro remaining
  induction remaining with
  | nil =>
    intro scanned parent rank result inv r hr
    by_cases hstop : result.length < V - 1
    · rw [show kruskalGo V [] parent rank result.length result =
          (if result.length < V - 1 then none else some result) from rfl,
        if_pos hstop] at hr
      exact absurd hr (Option.noConfusion)
    · rw [show kruskalGo V [] parent rank result.length result =
          (if result.length < V - 1 then none else some result) from rfl,
        if_neg hstop] at hr
      obtain rfl : result = r := Option.some.inj hr
      exact loopInv_exit inv hstop
  | cons c rest ih =>
    intro scanned parent rank result inv r hr
    obtain ⟨u, v, w⟩ := c
    by_cases hstop : result.length < V - 1
    · simp only [kruskalGo] at hr
      rw [if_pos hstop] at hr
      by_cases hne : find parent u ≠ find parent v
      · rw [if_pos hne] at hr
        have hlen : (result ++ [((u : Nat), (v : Nat), (w : ℚ))]).length =
            result.length + 1 := by simp
        rw [← hlen] at hr
        exact (ih (scanned ++ [(u, v, w)]) _ _ (result ++ [(u, v, w)])
          (loopInv_accept inv hne) r hr)
      · rw [if_neg hne] at hr
        push_neg at hne
        exact ih (scanned ++ [(u, v, w)]) _ _ result (loopInv_discard inv hne) r hr
    · simp only [kruskalGo] at hr
      rw [if_neg hstop] at hr
      obtain rfl : result = r := Option.some.inj hr
      exact loopInv_exit inv hstop

/-- On a connected graph the loop always completes with a result. -/
theorem kruskalGo_progress {V : Nat} {input : List Edge}
    (hconn : ∀ u, u < V → ∀ v, v < V → Reach input u v) :
    ∀ (remaining scanned : List Edge) (parent rank : List Nat)
      (result : List Edge),
      LoopInv V input scanned remaining parent result →
      ∃ r, kruskalGo V remaining parent rank result.length result = some r := by
  intro remaining
  induction remaining with
  | nil =>
    intro scanned parent rank result inv
    by_cases hstop : result.length < V - 1
    · exfalso
      -- two distinct roots exist, and a crossing edge of the input would
      -- still have to be scanned, but the list is exhausted
      have hcard2 : 1 < (rootsF V parent).card := by
        have := inv.roots_card
        omega
      obtain ⟨r1, hr1, r2, hr2, hr12⟩ := Finset.one_lt_card.1 hcard2
      obtain ⟨hr1V, hr1fix⟩ := mem_rootsF.1 hr1
      obtain ⟨hr2V, hr2fix⟩ := mem_rootsF.1 hr2
      have hf1 : find parent r1 = r1 :=
        find_of_fix hr1fix (by rw [inv.ufwf.len]; exact hr1V)
      have hf2 : find parent r2 = r2 :=
        find_of_fix hr2fix (by rw [inv.ufwf.len]; exact hr2V)
      have hnr : ¬ Reach result r1 r2 := by
        intro hr
        exact hr12 (by rw [← hf1, ← hf2]; exact inv.complete r1 r2 hr1V hr2V hr)
      have hscan_eq : sortEdges input = scanned := by
        have := inv.sorted_eq
        rwa [List.append_nil] at this
      have hreach_scanned : Reach scanned r1 r2 := by
        refine reach_mono ?_ (hconn r1 hr1V r2 hr2V)
        intro e he
        rw [← hscan_eq]
        exact mem_sortEdges.2 he
      obtain ⟨g, hg, a, b, hgt, hPa, hPb⟩ :=
        cross_exists (fun z => Reach result r1 z) hreach_scanned
          Relation.ReflTransGen.refl hnr
      have hVg := loopInv_valid_scanned inv g (List.mem_append.2 (Or.inl (by
        rw [← hscan_eq]
        exact hscan_eq ▸ hg)))
      have hreachg : Reach result g.1 g.2.1 :=
        (loopInv_find_iff inv hVg.1 hVg.2).1 (inv.scanned_flat g hg)
      have hab : Reach result a b := by
        rcases hgt with ⟨h1, h2⟩ | ⟨h1, h2⟩
        · rw [← h1, ← h2]
          exact hreachg
        · rw [← h1, ← h2]
          exact reach_symm hreachg
      exact hPb (hPa.trans hab)
    · exact ⟨result, by
        rw [show kruskalGo V [] parent rank result.length result =
          (if result.length < V - 1 then none else some result) from rfl,
          if_neg hstop]⟩
  | cons c rest ih =>
    intro scanned parent rank result inv
    obtain ⟨u, v, w⟩ := c
    by_cases hstop : result.length < V - 1
    · by_cases hne : find parent u ≠ find parent v
      · obtain ⟨r, hr⟩ := ih (scanned ++ [(u, v, w)])
          (union parent rank (find parent u) (find parent v)).1
          (union parent rank (find parent u) (find parent v)).2
          (result ++ [(u, v, w)]) (loopInv_accept inv hne)
        refine ⟨r, ?_⟩
        simp only [kruskalGo]
        rw [if_pos hstop, if_pos hne]
        have hlen : (result ++ [((u : Nat), (v : Nat), (w : ℚ))]).length =
            result.length + 1 := by simp
        rw [← hlen]
        exact hr
      · push_neg at hne
        obtain ⟨r, hr⟩ := ih (scanned ++ [(u, v, w)]) parent rank result
          (loopInv_discard inv hne)
        refine ⟨r, ?_⟩
        simp only [kruskalGo]
        rw [if_pos hstop, if_neg (fun h => h hne)]
        exact hr
    · exact ⟨result, by
        simp only [kruskalGo]
        rw [if_neg hstop]⟩

/-! ## The Kruskal correctness claims -/

/-- Claim C1: on every connected graph with valid edge endpoints built by
`addEdge`, `kruskal()` succeeds and returns exactly `V - 1` edges, in
acceptance order of non-decreasing weight, and their weight sum is the
minimum spanning tree weight of the input (the result is itself a
spanning tree whose weight bounds every spanning tree from below). -/
theorem claim_C1 (g : Graph) (hval : ValidEdges g.V g.graph)
    (hconn : ConnectedG g) :
    ∃ res, g.kruskal = some res ∧
      res.length = g.V - 1 ∧
      res.Pairwise weightLE ∧
      IsSpanTree g.V g.graph res ∧
      (∀ T, IsSpanTree g.V g.graph T → weightSum res ≤ weightSum T) := by
  have hinv := loopInv_init g.V g.graph hval
  obtain ⟨r, hr⟩ := kruskalGo_progress hconn (sortEdges g.graph) []
    (List.range g.V) (List.replicate g.V 0) [] hinv
  have hprops := kruskalGo_some (sortEdges g.graph) [] (List.range g.V)
    (List.replicate g.V 0) [] hinv r hr
  exact ⟨r, hr, hprops.1, hprops.2.1, hprops.2.2.1, hprops.2.2.2.1⟩

set_option maxRecDepth 8000 in
/-- Witness for claim C1 on the worked 4-vertex example graph. -/
theorem claim_C1_witness :
    ValidEdges 4 [(0, 1, 1), (1, 2, 2), (0, 2, 3), (2, 3, 1)] ∧
    ConnectedG (Graph.mk 4 [(0, 1, 1), (1, 2, 2), (0, 2, 3), (2, 3, 1)]) ∧
    (∃ res, (Graph.mk 4 [(0, 1, 1), (1, 2, 2), (0, 2, 3), (2, 3, 1)]).kruskal =
        some res ∧
      res.length = 4 - 1 ∧
      res.Pairwise weightLE ∧
      IsSpanTree 4 [(0, 1, 1), (1, 2, 2), (0, 2, 3), (2, 3, 1)] res ∧
      (∀ T, IsSpanTree 4 [(0, 1, 1), (1, 2, 2), (0, 2, 3), (2, 3, 1)] T →
        weightSum res ≤ weightSum T)) :=
  ⟨by decide, by decide,
   claim_C1 (Graph.mk 4 [(0, 1, 1), (1, 2, 2), (0, 2, 3), (2, 3, 1)])
     (by decide) (by decide)⟩

/-- Claim C2: on every disconnected graph (with valid edge endpoints) the
scanning loop exhausts the sorted edge list before accepting `V - 1`
edges and reads past its end; in this embedding the out-of-range access
is the `none` outcome, and no ordinary value or dedicated error is
produced. -/
theorem claim_C2 (g : Graph) (hval : ValidEdges g.V g.graph)
    (hdisc : ¬ ConnectedG g) : g.kruskal = none := by
  cases hk : g.kruskal with
  | none => rfl
  | some r =>
    exfalso
    have hinv := loopInv_init g.V g.graph hval
    have hprops := kruskalGo_some (sortEdges g.graph) [] (List.range g.V)
      (List.replicate g.V 0) [] hinv r hk
    exact hdisc hprops.2.2.2.2

set_option maxRecDepth 8000 in
/-- Witness for claim C2 on the spec's disconnected scenario: vertices
0 to 3 with edges only inside the pairs 01 and 23. -/
theorem claim_C2_witness :
    ValidEdges 4 [(0, 1, 1), (2, 3, 1)] ∧
    ¬ ConnectedG (Graph.mk 4 [(0, 1, 1), (2, 3, 1)]) ∧
    (Graph.mk 4 [(0, 1, 1), (2, 3, 1)]).kruskal = none :=
  ⟨by decide, by decide,
   claim_C2 (Graph.mk 4 [(0, 1, 1), (2, 3, 1)]) (by decide) (by decide)⟩
